import Mathlib

/-!
# Prototyper: the PDF exporter

A shallow embedding of `src/Prototyper/Core/pdf_exporter.cpp`:

* `PdfExporterPrivate::createImages` (one temporary SVG file per form),
* the document builder of `PdfExporter::exportToDoc` (the `foreach` over the
  forms of the project, lines 136-224),
* the pagination loop of `PdfExporter::exportToDoc` (the `while` over the
  text blocks of the document, lines 235-310).

Lengths that the source holds in `qreal` are rationals, lengths that it holds
in `int` (the page body taken from `pdf.width()`, `pdf.height()`, and every
`QSize`) are integers. The pagination loop is given twice: `step` adds in exact
arithmetic, `stepR` rounds every sum `y + height` to a `qreal` by a rounding
function, for which `roundDouble` is rounding to the nearest double.
-/

namespace Prototyper.Core

/-! ## Sizes -/

/-- Integer size with the two fields of Qt's `QSize`. -/
structure QSize where
  wd : Int
  ht : Int
deriving DecidableEq, Repr

/-- Narrowing of a 64-bit intermediate to a 32-bit `int` (two's complement wrap). -/
def toInt32 (x : Int) : Int := (x + 2147483648) % 4294967296 - 2147483648

/-- The call `self.scaled( s, Qt::KeepAspectRatio )` of pdf_exporter.cpp:271.
`QSize::scaled` is Qt library code: with a zero side it returns `s`; otherwise it
computes `rw = s.ht * wd / ht` in 64-bit integers (C++ division, truncating) and
returns `(rw, s.ht)` when `rw <= s.wd`, else `(s.wd, s.wd * ht / wd)`. -/
def QSize.scaled (self s : QSize) : QSize :=
  if self.wd = 0 ∨ self.ht = 0 then s
  else
    let rw := Int.tdiv (s.ht * self.wd) self.ht
    if rw ≤ s.wd then ⟨toInt32 rw, s.ht⟩
    else ⟨s.wd, toInt32 (Int.tdiv (s.wd * self.ht) self.wd)⟩

/-! ## Text blocks and their fragments -/

/-- The value of `QTextFormat::UserFormat`. -/
def UserFormat : Int := 100

/-- Object type of the page-break marker: `QTextFormat::UserFormat + 1`. -/
def c_pageBreakType : Int := UserFormat + 1

/-- One fragment of a text block, reduced to what the loop reads from it:
whether its text contains the object replacement character, whether its char
format is an image format, the object type of its char format, and the size of
the view box of the SVG file that its image format names. -/
structure Fragment where
  hasObjectChar : Bool
  isImageFormat : Bool
  objectType : Int
  viewBox : QSize
deriving DecidableEq, Repr

/-- A text block: its fragments and the height of the bounding rectangle of its
layout (`block.layout()->boundingRect().height()`). -/
structure Block where
  fragments : List Fragment
  layoutHeight : ℚ

/-- The locals of the fragment loop (lines 241-259). `imageFormat` is kept as the
view box of the file it names; a default image format names no file. -/
structure Flags where
  isObject : Bool
  isImage : Bool
  isBreak : Bool
  imageFormat : QSize
deriving DecidableEq, Repr

/-- One iteration of the fragment loop: the three flags are overwritten, the
image format is overwritten only for an image fragment. -/
def scanStep (fl : Flags) (f : Fragment) : Flags :=
  let isObject := f.hasObjectChar
  let isImage := isObject && f.isImageFormat
  let isBreak := isObject && (f.objectType == c_pageBreakType)
  ⟨isObject, isImage, isBreak, if isImage then f.viewBox else fl.imageFormat⟩

/-- The fragment loop of one block (lines 239-259). -/
def scanFragments (b : Block) : Flags :=
  b.fragments.foldl scanStep ⟨false, false, false, ⟨0, 0⟩⟩

/-! ## The pagination loop -/

/-- Running state of the loop: the number of `pdf.newPage()` calls so far (the
index of the current page) and the cursor `y`. -/
structure State where
  page : Nat
  y : ℚ
deriving DecidableEq

/-- Where a block is drawn: page index, offset `y` passed to the painter, the
height added to `y` afterwards, and for an image the rendered size. -/
structure Placement where
  page : Nat
  y : ℚ
  height : ℚ
  image : Option QSize
deriving DecidableEq

/-- One iteration of the `while` loop (lines 261-307) for a page body `body`, in
exact arithmetic: the new state and the placement of the block, if it is drawn.
The same iteration with the sums rounded to a `qreal` is `stepR`. -/
def step (body : QSize) (st : State) (b : Block) : State × Option Placement :=
  let fl := scanFragments b
  if fl.isBreak then
    (⟨st.page + 1, 0⟩, none)
  else if fl.isImage then
    let s := fl.imageFormat.scaled body
    let st1 : State := if st.y + (s.ht : ℚ) > (body.ht : ℚ) then ⟨st.page + 1, 0⟩ else st
    (⟨st1.page, st1.y + (s.ht : ℚ)⟩, some ⟨st1.page, st1.y, (s.ht : ℚ), some s⟩)
  else
    let r := b.layoutHeight
    let st1 : State := if st.y + r > (body.ht : ℚ) then ⟨st.page + 1, 0⟩ else st
    (⟨st1.page, st1.y + r⟩, some ⟨st1.page, st1.y, r, none⟩)

/-- The placements of the blocks, in block order, starting from state `st`. -/
def paginate (body : QSize) : State → List Block → List (Option Placement)
  | _, [] => []
  | st, b :: bs => (step body st b).2 :: paginate body (step body st b).1 bs

/-- The state after the loop has processed `blocks` from state `st`. -/
def stateAfter (body : QSize) (st : State) (blocks : List Block) : State :=
  blocks.foldl (fun s b => (step body s b).1) st

/-- The loop as `exportToDoc` runs it: first page, `y = 0.0`. -/
def layout (body : QSize) (blocks : List Block) : List (Option Placement) :=
  paginate body ⟨0, 0⟩ blocks

/-- Index of the last page started by the loop. -/
def lastPage (body : QSize) (blocks : List Block) : Nat :=
  (stateAfter body ⟨0, 0⟩ blocks).page

/-- A block the loop draws (text or image): not a page-break block. -/
def isDrawn (b : Block) : Bool := !(scanFragments b).isBreak

/-- The height the loop adds to `y` for a drawn block: the scaled height of an
image, the layout height of a text block. -/
def drawnHeight (body : QSize) (b : Block) : ℚ :=
  if (scanFragments b).isImage then (((scanFragments b).imageFormat.scaled body).ht : ℚ)
  else b.layoutHeight

/-- The rendered size of an image block, none for a text block. -/
def drawnImage (body : QSize) (b : Block) : Option QSize :=
  if (scanFragments b).isImage then some ((scanFragments b).imageFormat.scaled body) else none

/-- The page a drawn block of height `h` goes to, from state `st`. -/
def placePage (body : QSize) (st : State) (h : ℚ) : Nat :=
  if st.y + h > (body.ht : ℚ) then st.page + 1 else st.page

/-- The offset a drawn block of height `h` is drawn at, from state `st`. -/
def placeY (body : QSize) (st : State) (h : ℚ) : ℚ :=
  if st.y + h > (body.ht : ℚ) then 0 else st.y

/-- A text block of layout height `h` holding one fragment of plain text. -/
def textBlock (h : ℚ) : Block := ⟨[⟨false, false, 0, ⟨0, 0⟩⟩], h⟩

/-- The block of a page-break marker: one fragment with the object replacement
character and object type `c_pageBreakType`; `h` is its layout height. -/
def breakBlock (h : ℚ) : Block := ⟨[⟨true, false, c_pageBreakType, ⟨0, 0⟩⟩], h⟩

/-- The block of an inserted image: one fragment with the object replacement
character and an image format (object type `QTextFormat::ImageObject`, 1) naming
a file of view box `vb`; `h` is its layout height. -/
def imageBlock (vb : QSize) (h : ℚ) : Block := ⟨[⟨true, true, 1, vb⟩], h⟩

/-- Order of two cursor positions: an earlier page, or the same page and a
smaller or equal offset. -/
def State.le (s t : State) : Prop :=
  s.page < t.page ∨ (s.page = t.page ∧ s.y ≤ t.y)

/-! ## The pagination loop with rounded sums

The cursor `y` and the heights are `qreal` (double) in the source, so each sum
`y + height` is rounded to a double. -/

/-- Rounding of a rational to the nearest integer, ties to the even one. -/
def roundHalfEven (q : ℚ) : ℤ :=
  if q - ⌊q⌋ < 1 / 2 then ⌊q⌋
  else if 1 / 2 < q - ⌊q⌋ then ⌊q⌋ + 1
  else if ⌊q⌋ % 2 = 0 then ⌊q⌋ else ⌊q⌋ + 1

/-- Rounding of a positive rational to a 53-bit significand: with `e` the binary
exponent of `x` (`2 ^ e <= x < 2 ^ (e + 1)`), the nearest multiple of
`2 ^ (e - 52)`, ties to even. -/
def roundPos (x : ℚ) : ℚ :=
  (roundHalfEven (x / 2 ^ (Int.log 2 x - 52)) : ℚ) * 2 ^ (Int.log 2 x - 52)

/-- Rounding to the nearest double (IEEE 754 binary64, round to nearest, ties to
even), by sign and magnitude. The exponent is not bounded: overflow and
subnormal values are outside this model. -/
def roundDouble (x : ℚ) : ℚ :=
  if x = 0 then 0 else if x < 0 then -roundPos (-x) else roundPos x

/-- What the proofs use of the rounding of a sum to a `qreal`: it is monotone,
it leaves its own results unchanged, and it leaves 0 unchanged. -/
structure IsRounding (rnd : ℚ → ℚ) : Prop where
  mono : ∀ a b : ℚ, a ≤ b → rnd a ≤ rnd b
  idem : ∀ a : ℚ, rnd (rnd a) = rnd a
  zero : rnd 0 = 0

/-- One iteration of the `while` loop (lines 261-307) with every sum rounded by
`rnd`: the test is on the rounded `y + height`, and `y += height` stores the
rounded sum. -/
def stepR (rnd : ℚ → ℚ) (body : QSize) (st : State) (b : Block) :
    State × Option Placement :=
  let fl := scanFragments b
  if fl.isBreak then
    (⟨st.page + 1, 0⟩, none)
  else if fl.isImage then
    let s := fl.imageFormat.scaled body
    let st1 : State :=
      if rnd (st.y + (s.ht : ℚ)) > (body.ht : ℚ) then ⟨st.page + 1, 0⟩ else st
    (⟨st1.page, rnd (st1.y + (s.ht : ℚ))⟩, some ⟨st1.page, st1.y, (s.ht : ℚ), some s⟩)
  else
    let r := b.layoutHeight
    let st1 : State := if rnd (st.y + r) > (body.ht : ℚ) then ⟨st.page + 1, 0⟩ else st
    (⟨st1.page, rnd (st1.y + r)⟩, some ⟨st1.page, st1.y, r, none⟩)

/-- The placements of the blocks with rounded sums, starting from state `st`. -/
def paginateR (rnd : ℚ → ℚ) (body : QSize) : State → List Block → List (Option Placement)
  | _, [] => []
  | st, b :: bs => (stepR rnd body st b).2 :: paginateR rnd body (stepR rnd body st b).1 bs

/-- The state after the loop with rounded sums has processed `blocks`. -/
def stateAfterR (rnd : ℚ → ℚ) (body : QSize) (st : State) (blocks : List Block) : State :=
  blocks.foldl (fun s b => (stepR rnd body s b).1) st

/-- The loop with rounded sums as `exportToDoc` runs it: first page, `y = 0.0`. -/
def layoutR (rnd : ℚ → ℚ) (body : QSize) (blocks : List Block) : List (Option Placement) :=
  paginateR rnd body ⟨0, 0⟩ blocks

/-- The page a drawn block of height `h` goes to, with rounded sums. -/
def placePageR (rnd : ℚ → ℚ) (body : QSize) (st : State) (h : ℚ) : Nat :=
  if rnd (st.y + h) > (body.ht : ℚ) then st.page + 1 else st.page

/-- The offset a drawn block of height `h` is drawn at, with rounded sums. -/
def placeYR (rnd : ℚ → ℚ) (body : QSize) (st : State) (h : ℚ) : ℚ :=
  if rnd (st.y + h) > (body.ht : ℚ) then 0 else st.y

/-- The double nearest to 0.1. -/
def double_0_1 : ℚ := 3602879701896397 / 36028797018963968

/-- The double nearest to 99.9. -/
def double_99_9 : ℚ := 3514918771674317 / 35184372088832

/-! ## The project, the temporary images and the document builder -/

/-- A description (`Cfg::Description`): its id and its text. -/
structure Description where
  id : String
  text : String
deriving DecidableEq, Repr

/-- A form (`Cfg::Form`): its tab name and its descriptions. -/
structure Form where
  tabName : String
  desc : List Description
deriving DecidableEq, Repr

/-- A project (`Cfg::Project`): its own description text and its forms. -/
structure Project where
  description : String
  form : List Form
deriving DecidableEq, Repr

/-- A temporary SVG file, identified by the form that `drawForm` drew into it. -/
structure TmpFile where
  drawn : Form
deriving DecidableEq, Repr

/-- `PdfExporterPrivate::createImages` (lines 72-88): for every form of the
project, in order, a new temporary file is appended to `m_images` and the form
is drawn into it. -/
def createImages (form : List Form) (m_images : List TmpFile) : List TmpFile :=
  form.foldl (fun images f => images ++ [⟨f⟩]) m_images

/-- What the builder appends to the document, one constructor per kind of call:
`plain s` is `c.insertText( s )`; `pageBreak` is the insertion of the object
replacement character and a newline with object type `c_pageBreakType`;
`header s` is `c.setCharFormat( header ); c.insertText( s )` (bold, 20 pt);
`image f` is `c.insertImage` of the image named by the file `f`;
`richText t` is `Cfg::fillTextDocument( &doc, t )`;
`h2 s` is `c.setCharFormat( h2 ); c.insertText( s )` (bold italic, 15 pt). -/
inductive Piece where
  | plain (s : String)
  | pageBreak
  | header (s : String)
  | image (f : TmpFile)
  | richText (t : String)
  | h2 (s : String)
deriving DecidableEq, Repr

/-- The loop over the descriptions of a form (lines 199-223): `it` is the
position of the iterator, `formIt` the position found by `std::find_if`. -/
def descLoop (formIt : Nat) : Nat → List Description → List Piece
  | _, [] => []
  | it, d :: rest =>
    (if it ≠ formIt then
      [Piece.h2 (d.id ++ "\n\n"), Piece.richText d.text, Piece.plain "\n\n"]
    else []) ++ descLoop formIt (it + 1) rest

/-- The body of the `foreach` over the forms (lines 138-223) for one form whose
image file is `img`. `formIt` is the position of the first description whose id
equals the tab name, the length of the list when there is none (`constEnd`). -/
def formPieces (form : Form) (img : TmpFile) : List Piece :=
  let formIt := form.desc.findIdx (fun desc => form.tabName == desc.id)
  [Piece.plain "\n", Piece.pageBreak, Piece.header (form.tabName ++ "\n\n"),
    Piece.image img, Piece.plain "\n"]
  ++ (match form.desc[formIt]? with
      | some d => [Piece.plain "\n\n", Piece.richText d.text, Piece.plain "\n\n"]
      | none => [])
  ++ descLoop formIt 0 form.desc

/-- The `foreach` over the forms with its counter `i` (lines 134-224);
`m_images.at( i )` out of range is a failure. -/
def buildForms (m_images : List TmpFile) : Nat → List Form → Option (List Piece)
  | _, [] => some []
  | i, form :: rest =>
    match m_images[i]? with
    | none => none
    | some img =>
      match buildForms m_images (i + 1) rest with
      | none => none
      | some tail => some (formPieces form img ++ tail)

/-- The document builder of `exportToDoc` (lines 130-224): the project
description, then the forms. -/
def buildDoc (cfg : Project) (m_images : List TmpFile) : Option (List Piece) :=
  match buildForms m_images 0 cfg.form with
  | none => none
  | some pieces => some (Piece.richText cfg.description :: pieces)

/-- The builder as `exportToDoc` runs it on an exporter whose image list is
`m_images`: `d->createImages()` first (line 125), then the document. -/
def exportToDoc_build (cfg : Project) (m_images : List TmpFile) : Option (List Piece) :=
  buildDoc cfg (createImages cfg.form m_images)

/-! ## The template of one form, as the specification words it -/

/-- The pieces for one described item: a heading with the id, then the text. -/
def describedPieces (d : Description) : List Piece :=
  [Piece.h2 (d.id ++ "\n\n"), Piece.richText d.text, Piece.plain "\n\n"]

/-- The template of one form: page break, heading with the tab name, image;
then the text of the (first) description whose id is the tab name, if any;
then every other description, in order, each under a heading with its id. -/
def formTemplate (form : Form) (img : TmpFile) : List Piece :=
  [Piece.plain "\n", Piece.pageBreak, Piece.header (form.tabName ++ "\n\n"),
    Piece.image img, Piece.plain "\n"]
  ++ (match form.desc.find? (fun d => d.id == form.tabName) with
      | some d => [Piece.plain "\n\n", Piece.richText d.text, Piece.plain "\n\n"]
      | none => [])
  ++ (form.desc.eraseP (fun d => d.id == form.tabName)).flatMap describedPieces

/-- The image files a list of pieces references, in order of appearance. -/
def imagesOf : List Piece → List TmpFile
  | [] => []
  | Piece.image f :: rest => f :: imagesOf rest
  | _ :: rest => imagesOf rest

/-! ## The polyline (`src/Prototyper/Core/form_polyline.cpp`)

Coordinates are `qreal` in the source and rationals here (exact arithmetic). -/

/-- A point with the two coordinates of Qt's `QPointF`. -/
structure QPointF where
  x : ℚ
  y : ℚ
deriving DecidableEq

/-- A line with the two end points of Qt's `QLineF`. -/
structure QLineF where
  p1 : QPointF
  p2 : QPointF
deriving DecidableEq

/-- A rectangle as Qt's `QRectF` holds it: top-left corner, width and height. -/
structure QRectF where
  x : ℚ
  y : ℚ
  w : ℚ
  h : ℚ
deriving DecidableEq

/-- Top-left corner of a rectangle. -/
def QRectF.topLeft (r : QRectF) : QPointF := ⟨r.x, r.y⟩

/-- Bottom-right corner of a rectangle: `(x + width, y + height)`. -/
def QRectF.bottomRight (r : QRectF) : QPointF := ⟨r.x + r.w, r.y + r.h⟩

/-- The four running extremes of `QPolygonF::boundingRect`. -/
structure Extremes where
  minx : ℚ
  maxx : ℚ
  miny : ℚ
  maxy : ℚ
deriving DecidableEq

/-- One step of the loop of `QPolygonF::boundingRect` over the points after the
first: `if x < minx then minx = x else if x > maxx then maxx = x`, and the same
for `y`. -/
def extremesStep (e : Extremes) (p : QPointF) : Extremes :=
  let e1 : Extremes :=
    if p.x < e.minx then { e with minx := p.x }
    else if p.x > e.maxx then { e with maxx := p.x } else e
  if p.y < e1.miny then { e1 with miny := p.y }
  else if p.y > e1.maxy then { e1 with maxy := p.y } else e1

/-- The call `m_polygon.boundingRect()` of form_polyline.cpp:164.
`QPolygonF::boundingRect` is Qt library code: the null rectangle for no points,
otherwise the rectangle from the least to the greatest coordinates. -/
def QPolygonF.boundingRect (points : List QPointF) : QRectF :=
  match points with
  | [] => ⟨0, 0, 0, 0⟩
  | p :: ps =>
    let e := ps.foldl extremesStep ⟨p.x, p.x, p.y, p.y⟩
    ⟨e.minx, e.miny, e.maxx - e.minx, e.maxy - e.miny⟩

/-- A move handle (`FormMoveHandle`), reduced to its half size, its position and
whether it is shown. -/
structure FormMoveHandle where
  halfOfSize : ℚ
  pos : QPointF
  visible : Bool
deriving DecidableEq

/-- The state of a polyline: the members `m_lines`, `m_polygon`, `m_start`,
`m_end`, `m_closed` of `FormPolylinePrivate`, the points of the painter path set
on the item, and whether the brush of the item is the object brush (`filled`)
rather than transparent. -/
structure FormPolylinePrivate where
  m_lines : List QLineF
  m_polygon : List QPointF
  m_start : FormMoveHandle
  m_end : FormMoveHandle
  m_closed : Bool
  path : List QPointF
  filled : Bool
deriving DecidableEq

/-- The locals of the loop of `makePath`, with `m_closed`. -/
structure PathAcc where
  path : List QPointF
  first : QPointF
  points : List QPointF
  closed : Bool

/-- The loop of `makePath` (lines 110-128) from index `i` over the remaining
lines; `size` is `m_lines.size()` and `eq` is the comparison `==` of `QPointF`. -/
def makePathLoop (eq : QPointF → QPointF → Bool) (size : Nat) :
    Nat → List QLineF → PathAcc → PathAcc
  | _, [], acc => acc
  | i, line :: rest, acc =>
    let acc1 : PathAcc := { acc with points := acc.points ++ [line.p1, line.p2] }
    let acc2 : PathAcc :=
      if i = 0 then { acc1 with path := acc1.path ++ [line.p1], first := line.p1 } else acc1
    let acc3 : PathAcc := { acc2 with path := acc2.path ++ [line.p2] }
    let acc4 : PathAcc :=
      if i + 1 = size ∧ eq line.p2 acc3.first = true then { acc3 with closed := true }
      else acc3
    makePathLoop eq size (i + 1) rest acc4

/-- `FormPolylinePrivate::makePath` (lines 101-140). -/
def makePath (eq : QPointF → QPointF → Bool) (d : FormPolylinePrivate) :
    FormPolylinePrivate :=
  let acc := makePathLoop eq d.m_lines.length 0 d.m_lines ⟨[], ⟨0, 0⟩, [], d.m_closed⟩
  let d1 : FormPolylinePrivate :=
    { d with m_polygon := acc.points, path := acc.path, m_closed := acc.closed }
  if d1.m_closed then
    { d1 with filled := true,
              m_start := { d1.m_start with visible := false },
              m_end := { d1.m_end with visible := false } }
  else d1

/-- The lambda of `updateLines` (lines 151-154) applied to one end point. -/
def updatePoint (oldR newR : QRectF) (mx my : ℚ) (p : QPointF) : QPointF :=
  ⟨(p.x - oldR.x) / mx + newR.x, (p.y - oldR.y) / my + newR.y⟩

/-- `FormPolylinePrivate::updateLines` (lines 142-159). -/
def updateLines (eq : QPointF → QPointF → Bool) (oldR newR : QRectF)
    (d : FormPolylinePrivate) : FormPolylinePrivate :=
  let mx := oldR.w / newR.w
  let my := oldR.h / newR.h
  makePath eq { d with m_lines := d.m_lines.map (fun line =>
    ⟨updatePoint oldR newR mx my line.p1, updatePoint oldR newR mx my line.p2⟩) }

/-- `FormPolylinePrivate::boundingRect` (lines 161-165). -/
def FormPolylinePrivate.boundingRect (d : FormPolylinePrivate) : QRectF :=
  QPolygonF.boundingRect d.m_polygon

/-- `FormPolyline::lines` (lines 183-187). -/
def lines (d : FormPolylinePrivate) : List QLineF := d.m_lines

/-- `FormPolyline::appendLine` (lines 200-225); `eq` is the comparison `==` of
`QPointF`. -/
def appendLine (eq : QPointF → QPointF → Bool) (line : QLineF)
    (d : FormPolylinePrivate) : FormPolylinePrivate :=
  let d1 : FormPolylinePrivate :=
    if d.m_lines.isEmpty then
      { d with m_start := { d.m_start with
          pos := ⟨line.p1.x - d.m_start.halfOfSize, line.p1.y - d.m_start.halfOfSize⟩ } }
    else d
  let fits : Bool :=
    match d1.m_lines.getLast? with
    | none => true
    | some l => eq l.p2 line.p1
  if fits then
    let d2 := makePath eq { d1 with m_lines := d1.m_lines ++ [line] }
    { d2 with m_end := { d2.m_end with
        pos := ⟨line.p2.x - d2.m_end.halfOfSize, line.p2.y - d2.m_end.halfOfSize⟩ } }
  else
    let d2 := makePath eq { d1 with m_lines := ⟨line.p2, line.p1⟩ :: d1.m_lines }
    { d2 with m_start := { d2.m_start with
        pos := ⟨line.p2.x - d2.m_start.halfOfSize, line.p2.y - d2.m_start.halfOfSize⟩ } }

/-- `FormPolyline::setLines` (lines 189-198). -/
def setLines (eq : QPointF → QPointF → Bool) (lns : List QLineF)
    (d : FormPolylinePrivate) : FormPolylinePrivate :=
  lns.foldl (fun s line => appendLine eq line s) { d with m_closed := false, filled := false }

/-- The end points of a list of lines, `p1` then `p2` of each line in order. -/
def endPoints (lns : List QLineF) : List QPointF :=
  lns.flatMap (fun line => [line.p1, line.p2])

/-- A connected chain: each line starts at the end point of the line before it. -/
def connected : List QLineF → Prop
  | [] => True
  | [_] => True
  | a :: b :: rest => b.p1 = a.p2 ∧ connected (b :: rest)

/-- The affine map, per coordinate, that sends the top-left corner of `oldR` to
the top-left corner of `newR` and the bottom-right corner of `oldR` to the
bottom-right corner of `newR`. -/
def cornerMap (oldR newR : QRectF) (p : QPointF) : QPointF :=
  ⟨newR.x + (p.x - oldR.x) * (newR.w / oldR.w), newR.y + (p.y - oldR.y) * (newR.h / oldR.h)⟩

/-- Exact comparison of two points. -/
def pointEq (p q : QPointF) : Bool := decide (p = q)

/-! ## Basic facts about one iteration -/

theorem step_break (body : QSize) (st : State) (b : Block)
    (h : (scanFragments b).isBreak = true) :
    step body st b = (⟨st.page + 1, 0⟩, none) := by
  simp [step, h]

theorem step_drawn (body : QSize) (st : State) (b : Block) (h : isDrawn b = true) :
    step body st b =
      (⟨placePage body st (drawnHeight body b),
        placeY body st (drawnHeight body b) + drawnHeight body b⟩,
       some ⟨placePage body st (drawnHeight body b), placeY body st (drawnHeight body b),
             drawnHeight body b, drawnImage body b⟩) := by
  have hb : (scanFragments b).isBreak = false := by simpa [isDrawn] using h
  by_cases hi : (scanFragments b).isImage = true
  · by_cases hc : st.y + (((scanFragments b).imageFormat.scaled body).ht : ℚ) > (body.ht : ℚ)
    · simp [step, hb, hi, drawnHeight, drawnImage, placePage, placeY, hc]
    · simp [step, hb, hi, drawnHeight, drawnImage, placePage, placeY, hc]
  · by_cases hc : st.y + b.layoutHeight > (body.ht : ℚ)
    · simp [step, hb, hi, drawnHeight, drawnImage, placePage, placeY, hc]
    · simp [step, hb, hi, drawnHeight, drawnImage, placePage, placeY, hc]

theorem stateAfter_append (body : QSize) (st : State) (xs ys : List Block) :
    stateAfter body st (xs ++ ys) = stateAfter body (stateAfter body st xs) ys := by
  simp [stateAfter, List.foldl_append]

theorem stateAfter_cons (body : QSize) (st : State) (b : Block) (bs : List Block) :
    stateAfter body st (b :: bs) = stateAfter body (step body st b).1 bs := rfl

/-- The placement of the `i`-th block is the one computed by `step` from the
state reached after the first `i` blocks. -/
theorem paginate_getElem (body : QSize) (blocks : List Block) :
    ∀ (st : State) (i : Nat) (b : Block), blocks[i]? = some b →
      (paginate body st blocks)[i]? =
        some (step body (stateAfter body st (blocks.take i)) b).2 := by
  induction blocks with
  | nil => intro st i b h; simp at h
  | cons a as ih =>
    intro st i b h
    cases i with
    | zero =>
      simp at h
      subst h
      simp [paginate, stateAfter]
    | succ n =>
      simp only [List.getElem?_cons_succ] at h
      simp only [paginate, List.getElem?_cons_succ, List.take_succ_cons, stateAfter_cons]
      exact ih _ n b h

theorem layout_getElem_drawn (body : QSize) (blocks : List Block) (i : Nat) (b : Block)
    (hb : blocks[i]? = some b) (hd : isDrawn b = true) :
    (layout body blocks)[i]? =
      some (some ⟨placePage body (stateAfter body ⟨0, 0⟩ (blocks.take i)) (drawnHeight body b),
        placeY body (stateAfter body ⟨0, 0⟩ (blocks.take i)) (drawnHeight body b),
        drawnHeight body b, drawnImage body b⟩) := by
  rw [layout, paginate_getElem body blocks _ i b hb, step_drawn body _ b hd]

theorem layout_getElem_break (body : QSize) (blocks : List Block) (i : Nat) (b : Block)
    (hb : blocks[i]? = some b) (hd : isDrawn b = false) :
    (layout body blocks)[i]? = some none := by
  have hk : (scanFragments b).isBreak = true := by simpa [isDrawn] using hd
  rw [layout, paginate_getElem body blocks _ i b hb, step_break body _ b hk]

theorem stateAfter_take_succ (body : QSize) (st : State) (blocks : List Block) (i : Nat)
    (b : Block) (hb : blocks[i]? = some b) :
    stateAfter body st (blocks.take (i + 1)) =
      (step body (stateAfter body st (blocks.take i)) b).1 := by
  rw [List.take_succ, hb, stateAfter_append]
  rfl

theorem stateAfter_take_add (body : QSize) (st : State) (blocks : List Block) (i n : Nat) :
    stateAfter body st (blocks.take (i + n)) =
      stateAfter body (stateAfter body st (blocks.take i)) ((blocks.drop i).take n) := by
  rw [List.take_add, stateAfter_append]

/-! ## Monotonicity of the cursor -/

theorem step_page_le (body : QSize) (st : State) (b : Block) :
    st.page ≤ (step body st b).1.page := by
  by_cases hd : isDrawn b = true
  · rw [step_drawn body st b hd]
    simp only [placePage]
    split <;> omega
  · have hk : (scanFragments b).isBreak = true := by simpa [isDrawn] using hd
    rw [step_break body st b hk]
    simp

theorem stateAfter_page_le (body : QSize) (blocks : List Block) :
    ∀ st : State, st.page ≤ (stateAfter body st blocks).page := by
  induction blocks with
  | nil => intro st; simp [stateAfter]
  | cons a as ih =>
    intro st
    rw [stateAfter_cons]
    exact le_trans (step_page_le body st a) (ih _)

theorem stateAfter_take_page_mono (body : QSize) (st : State) (blocks : List Block)
    (i j : Nat) (hij : i ≤ j) :
    (stateAfter body st (blocks.take i)).page ≤ (stateAfter body st (blocks.take j)).page := by
  obtain ⟨n, rfl⟩ := Nat.exists_eq_add_of_le hij
  rw [stateAfter_take_add]
  exact stateAfter_page_le body _ _

theorem State.le_refl (s : State) : State.le s s := Or.inr ⟨rfl, le_rfl⟩

theorem State.le_trans {s t u : State} (h1 : State.le s t) (h2 : State.le t u) :
    State.le s u := by
  unfold State.le at *
  rcases h1 with h1 | ⟨h1, h1y⟩ <;> rcases h2 with h2 | ⟨h2, h2y⟩
  · left; omega
  · left; omega
  · left; omega
  · right; exact ⟨h1.trans h2, h1y.trans h2y⟩

theorem step_le (body : QSize) (st : State) (b : Block)
    (hnn : isDrawn b = true → 0 ≤ drawnHeight body b) :
    State.le st (step body st b).1 := by
  by_cases hd : isDrawn b = true
  · rw [step_drawn body st b hd]
    have h0 := hnn hd
    by_cases hc : st.y + drawnHeight body b > (body.ht : ℚ)
    · left; simp [placePage, hc]
    · right
      simp only [placePage, placeY, hc, if_false]
      exact ⟨trivial, by linarith⟩
  · have hk : (scanFragments b).isBreak = true := by simpa [isDrawn] using hd
    rw [step_break body st b hk]
    left; simp

theorem stateAfter_le (body : QSize) (blocks : List Block) :
    ∀ st : State, (∀ b ∈ blocks, isDrawn b = true → 0 ≤ drawnHeight body b) →
      State.le st (stateAfter body st blocks) := by
  induction blocks with
  | nil => intro st _; exact State.le_refl st
  | cons a as ih =>
    intro st hnn
    rw [stateAfter_cons]
    exact State.le_trans (step_le body st a (hnn a (List.mem_cons_self a as)))
      (ih _ (fun b hb => hnn b (List.mem_cons_of_mem a hb)))

theorem stateAfter_take_le (body : QSize) (st : State) (blocks : List Block)
    (hnn : ∀ b ∈ blocks, isDrawn b = true → 0 ≤ drawnHeight body b)
    (i j : Nat) (hij : i ≤ j) :
    State.le (stateAfter body st (blocks.take i)) (stateAfter body st (blocks.take j)) := by
  obtain ⟨n, rfl⟩ := Nat.exists_eq_add_of_le hij
  rw [stateAfter_take_add]
  apply stateAfter_le
  intro b hb
  exact hnn b (List.mem_of_mem_drop (List.mem_of_mem_take hb))

/-- The position a drawn block is put at is not before the cursor. -/
theorem place_le (body : QSize) (st : State) (h : ℚ) :
    State.le st ⟨placePage body st h, placeY body st h⟩ := by
  by_cases hc : st.y + h > (body.ht : ℚ)
  · left; simp [placePage, hc]
  · right; simp [placePage, placeY, hc]

theorem paginate_length (body : QSize) (blocks : List Block) :
    ∀ st : State, (paginate body st blocks).length = blocks.length := by
  induction blocks with
  | nil => intro st; rfl
  | cons a as ih => intro st; simp [paginate, ih]

/-- A placement in the layout comes from a drawn block at the same index. -/
theorem layout_some_inv (body : QSize) (blocks : List Block) (i : Nat) (pl : Placement)
    (h : (layout body blocks)[i]? = some (some pl)) :
    ∃ b : Block, blocks[i]? = some b ∧ isDrawn b = true ∧
      pl = ⟨placePage body (stateAfter body ⟨0, 0⟩ (blocks.take i)) (drawnHeight body b),
        placeY body (stateAfter body ⟨0, 0⟩ (blocks.take i)) (drawnHeight body b),
        drawnHeight body b, drawnImage body b⟩ := by
  have hi : i < blocks.length := by
    have := (List.getElem?_eq_some.1 h).1
    simpa [layout, paginate_length] using this
  have hb : blocks[i]? = some blocks[i] := List.getElem?_eq_getElem hi
  refine ⟨blocks[i], hb, ?_⟩
  by_cases hd : isDrawn blocks[i] = true
  · refine ⟨hd, ?_⟩
    rw [layout_getElem_drawn body blocks i _ hb hd] at h
    simpa using h.symm
  · have hd2 : isDrawn blocks[i] = false := by simpa using hd
    rw [layout_getElem_break body blocks i _ hb hd2] at h
    simp at h

theorem paginate_append (body : QSize) (xs ys : List Block) :
    ∀ st : State, paginate body st (xs ++ ys) =
      paginate body st xs ++ paginate body (stateAfter body st xs) ys := by
  induction xs with
  | nil => intro st; rfl
  | cons a as ih =>
    intro st
    show (step body st a).2 :: paginate body (step body st a).1 (as ++ ys) = _
    rw [ih]
    rfl

theorem step_placement_page (body : QSize) (st : State) (b : Block) (pl : Placement)
    (h : (step body st b).2 = some pl) : pl.page = (step body st b).1.page := by
  by_cases hd : isDrawn b = true
  · rw [step_drawn body st b hd] at h ⊢
    simp only [Option.some.injEq] at h
    rw [← h]
  · have hk : (scanFragments b).isBreak = true := by simpa [isDrawn] using hd
    rw [step_break body st b hk] at h
    simp at h

/-- No placement lies on a page after the last page started. -/
theorem paginate_page_le (body : QSize) (blocks : List Block) :
    ∀ (st : State) (pl : Placement), some pl ∈ paginate body st blocks →
      pl.page ≤ (stateAfter body st blocks).page := by
  induction blocks with
  | nil => intro st pl h; simp [paginate] at h
  | cons a as ih =>
    intro st pl h
    rw [stateAfter_cons]
    simp only [paginate, List.mem_cons] at h
    rcases h with h | h
    · rw [step_placement_page body st a pl h.symm]
      exact stateAfter_page_le body as _
    · exact ih _ pl h

/-! ## The claims on the pagination loop -/

/-- In exact arithmetic a drawn (text or image) block whose height, for an image
its scaled height, is at most the height of the page body is drawn at an offset
`y` with `y + height <= body height`. -/
theorem layout_within_body_exact (body : QSize) (blocks : List Block) (i : Nat)
    (b : Block) (hb : blocks[i]? = some b) (hd : isDrawn b = true)
    (hfit : drawnHeight body b ≤ (body.ht : ℚ)) :
    ∃ pl : Placement, (layout body blocks)[i]? = some (some pl) ∧
      pl.height = drawnHeight body b ∧ pl.y + pl.height ≤ (body.ht : ℚ) := by
  refine ⟨_, layout_getElem_drawn body blocks i b hb hd, rfl, ?_⟩
  simp only [placeY]
  split
  · simpa using hfit
  · linarith

/-- In exact arithmetic, with non-negative heights, of two drawn blocks the later
one in source order is on a later page, or on the same page at or below the end
of the earlier one. -/
theorem layout_monotonic_exact (body : QSize) (blocks : List Block)
    (hnn : ∀ b ∈ blocks, isDrawn b = true → 0 ≤ drawnHeight body b)
    (i j : Nat) (hij : i < j) (pl1 pl2 : Placement)
    (h1 : (layout body blocks)[i]? = some (some pl1))
    (h2 : (layout body blocks)[j]? = some (some pl2)) :
    pl2.page > pl1.page ∨ (pl2.page = pl1.page ∧ pl2.y ≥ pl1.y + pl1.height) := by
  obtain ⟨b1, hb1, hd1, rfl⟩ := layout_some_inv body blocks i pl1 h1
  obtain ⟨b2, _, _, rfl⟩ := layout_some_inv body blocks j pl2 h2
  have hs := stateAfter_take_succ body ⟨0, 0⟩ blocks i b1 hb1
  rw [step_drawn body _ b1 hd1] at hs
  have hmono := stateAfter_take_le body ⟨0, 0⟩ blocks hnn (i + 1) j hij
  rw [hs] at hmono
  have hfin := State.le_trans hmono
    (place_le body (stateAfter body ⟨0, 0⟩ (blocks.take j)) (drawnHeight body b2))
  rcases hfin with hlt | ⟨heq, hle⟩
  · left; exact hlt
  · right; exact ⟨heq.symm, hle⟩

/-- C3, as stated, fails: on a body of height 100 a text block of height 150
reached at the top of page 0 is not drawn on page 0; the loop starts page 1
first and draws it there. -/
theorem C3_counterexample :
    isDrawn (textBlock 150) = true ∧ (scanFragments (textBlock 150)).isImage = false ∧
    (textBlock 150).layoutHeight > (((⟨100, 100⟩ : QSize).ht : Int) : ℚ) ∧
    (step ⟨100, 100⟩ ⟨0, 0⟩ (textBlock 150)).2 ≠ some ⟨0, 0, 150, none⟩ ∧
    (step ⟨100, 100⟩ ⟨0, 0⟩ (textBlock 150)).1.page ≠ 0 ∧
    layout ⟨100, 100⟩ [textBlock 150] = [some ⟨1, 0, 150, none⟩] ∧
    lastPage ⟨100, 100⟩ [textBlock 150] = 1 := by
  refine ⟨rfl, rfl, ?_, ?_, ?_, ?_, ?_⟩ <;>
    norm_num [layout, lastPage, stateAfter, paginate, step, scanFragments, scanStep, textBlock]

/-- C3, amended: a text block higher than the page body that is reached with
the cursor at the top of a page (`y = 0`) is drawn at `y = 0` of the next page:
the loop starts exactly one new page before drawing it, and the cursor ends at
the height of the block. -/
theorem C3_oversized_text_block_at_top (body : QSize) (st : State) (b : Block)
    (hd : isDrawn b = true) (ht : (scanFragments b).isImage = false) (hy : st.y = 0)
    (hbig : b.layoutHeight > (body.ht : ℚ)) :
    step body st b =
      (⟨st.page + 1, b.layoutHeight⟩, some ⟨st.page + 1, 0, b.layoutHeight, none⟩) := by
  have hh : drawnHeight body b = b.layoutHeight := by simp [drawnHeight, ht]
  have hc : st.y + b.layoutHeight > (body.ht : ℚ) := by rw [hy]; simpa using hbig
  rw [step_drawn body st b hd, hh]
  simp [placePage, placeY, hc, drawnImage, ht]

/-- Instance of the amended C3: body height 100, block height 150, page 0. -/
theorem C3_oversized_text_block_at_top_witness :
    step ⟨100, 100⟩ ⟨0, 0⟩ (textBlock 150) =
      (⟨0 + 1, (textBlock 150).layoutHeight⟩,
        some ⟨0 + 1, 0, (textBlock 150).layoutHeight, none⟩) :=
  C3_oversized_text_block_at_top ⟨100, 100⟩ ⟨0, 0⟩ (textBlock 150) rfl rfl rfl
    (by norm_num [textBlock])

/-- C4, as stated, fails: a page-break block processed with the cursor at the
top of page 0 (`y = 0`) does start a new page. -/
theorem C4_counterexample :
    isDrawn (breakBlock 10) = false ∧
    step ⟨100, 100⟩ ⟨0, 0⟩ (breakBlock 10) = (⟨1, 0⟩, none) ∧
    (step ⟨100, 100⟩ ⟨0, 0⟩ (breakBlock 10)).1.page ≠ 0 := by
  refine ⟨rfl, ?_, ?_⟩ <;>
    simp [step, scanFragments, scanStep, breakBlock]

/-- C4, amended: a page-break block always starts a new page, whatever the
cursor: the page index grows by exactly one, `y` becomes 0, nothing is drawn. -/
theorem C4_page_break_always_starts_page (body : QSize) (st : State) (b : Block)
    (hk : isDrawn b = false) :
    (step body st b).1.page = st.page + 1 ∧ (step body st b).1.y = 0 ∧
      (step body st b).2 = none := by
  have hb : (scanFragments b).isBreak = true := by simpa [isDrawn] using hk
  rw [step_break body st b hb]
  exact ⟨rfl, rfl, rfl⟩

/-- Instance of the amended C4, with the cursor below the top of page 2. -/
theorem C4_page_break_always_starts_page_witness :
    (step ⟨100, 100⟩ ⟨2, 30⟩ (breakBlock 10)).1.page = 2 + 1 ∧
    (step ⟨100, 100⟩ ⟨2, 30⟩ (breakBlock 10)).1.y = 0 ∧
    (step ⟨100, 100⟩ ⟨2, 30⟩ (breakBlock 10)).2 = none :=
  C4_page_break_always_starts_page ⟨100, 100⟩ ⟨2, 30⟩ (breakBlock 10) rfl

/-- C5: a drawn block that follows a page-break block, in particular the first
one, is on a page index strictly greater than that of every drawn block before
the break. -/
theorem C5_explicit_break_honored (body : QSize) (blocks : List Block) (i j k : Nat)
    (hij : i < j) (hjk : j < k) (bj : Block) (hbj : blocks[j]? = some bj)
    (hbrk : isDrawn bj = false) (pl1 pl2 : Placement)
    (h1 : (layout body blocks)[i]? = some (some pl1))
    (h2 : (layout body blocks)[k]? = some (some pl2)) :
    pl1.page < pl2.page := by
  obtain ⟨b1, hb1, hd1, rfl⟩ := layout_some_inv body blocks i pl1 h1
  obtain ⟨b2, _, _, rfl⟩ := layout_some_inv body blocks k pl2 h2
  have hk : (scanFragments bj).isBreak = true := by simpa [isDrawn] using hbrk
  have hs1 := stateAfter_take_succ body ⟨0, 0⟩ blocks i b1 hb1
  rw [step_drawn body _ b1 hd1] at hs1
  have hsj := stateAfter_take_succ body ⟨0, 0⟩ blocks j bj hbj
  rw [step_break body _ bj hk] at hsj
  have m1 := stateAfter_take_page_mono body ⟨0, 0⟩ blocks (i + 1) j hij
  have m2 := stateAfter_take_page_mono body ⟨0, 0⟩ blocks (j + 1) k hjk
  rw [hs1] at m1
  rw [hsj] at m2
  have m3 : (stateAfter body ⟨0, 0⟩ (blocks.take k)).page ≤
      placePage body (stateAfter body ⟨0, 0⟩ (blocks.take k)) (drawnHeight body b2) := by
    simp only [placePage]
    split <;> omega
  simp only at m1 m2 ⊢
  omega

/-- Instance of C5: text, page break, text on a body of height 100: the two
text blocks are on pages 0 and 1. -/
theorem C5_explicit_break_honored_witness :
    (layout ⟨100, 100⟩ [textBlock 10, breakBlock 10, textBlock 10])[0]? =
      some (some ⟨0, 0, 10, none⟩) ∧
    (layout ⟨100, 100⟩ [textBlock 10, breakBlock 10, textBlock 10])[2]? =
      some (some ⟨1, 0, 10, none⟩) ∧
    (⟨0, 0, 10, none⟩ : Placement).page < (⟨1, 0, 10, none⟩ : Placement).page :=
  have h1 : (layout ⟨100, 100⟩ [textBlock 10, breakBlock 10, textBlock 10])[0]? =
      some (some ⟨0, 0, 10, none⟩) := by
    norm_num [layout, paginate, step, scanFragments, scanStep, textBlock, breakBlock]
  have h2 : (layout ⟨100, 100⟩ [textBlock 10, breakBlock 10, textBlock 10])[2]? =
      some (some ⟨1, 0, 10, none⟩) := by
    norm_num [layout, paginate, step, scanFragments, scanStep, textBlock, breakBlock]
  ⟨h1, h2, C5_explicit_break_honored ⟨100, 100⟩
    [textBlock 10, breakBlock 10, textBlock 10] 0 1 2 (by decide) (by decide)
    (breakBlock 10) rfl rfl _ _ h1 h2⟩

/-- C6: a drawn block whose height is exactly the space left on the page
(`body height - y`) is drawn on the current page at offset `y`, no page is
started, and the cursor afterwards is the body height. -/
theorem C6_exact_fit_no_break (body : QSize) (st : State) (b : Block)
    (hd : isDrawn b = true) (hfit : drawnHeight body b = (body.ht : ℚ) - st.y) :
    step body st b =
      (⟨st.page, (body.ht : ℚ)⟩,
        some ⟨st.page, st.y, drawnHeight body b, drawnImage body b⟩) := by
  have hc : ¬ (st.y + drawnHeight body b > (body.ht : ℚ)) := by
    rw [hfit]; simp
  have hsum : st.y + drawnHeight body b = (body.ht : ℚ) := by rw [hfit]; ring
  rw [step_drawn body st b hd]
  simp only [placePage, placeY, hc, if_false]
  rw [hsum]

/-- Instance of C6: cursor at 40 on a body of height 100, text block of height 60. -/
theorem C6_exact_fit_no_break_witness :
    step ⟨100, 100⟩ ⟨3, 40⟩ (textBlock 60) =
      (⟨3, (((⟨100, 100⟩ : QSize).ht : Int) : ℚ)⟩,
        some ⟨3, 40, drawnHeight ⟨100, 100⟩ (textBlock 60),
          drawnImage ⟨100, 100⟩ (textBlock 60)⟩) :=
  C6_exact_fit_no_break ⟨100, 100⟩ ⟨3, 40⟩ (textBlock 60) rfl
    (by norm_num [drawnHeight, scanFragments, scanStep, textBlock])

/-- C10, as stated, fails: for a text block followed by a page-break block the
last page started is page 1, it is not the only page, and nothing is drawn on
it. -/
theorem C10_counterexample :
    layout ⟨100, 100⟩ [textBlock 10, breakBlock 10] = [some ⟨0, 0, 10, none⟩, none] ∧
    lastPage ⟨100, 100⟩ [textBlock 10, breakBlock 10] = 1 ∧
    ¬ (lastPage ⟨100, 100⟩ [textBlock 10, breakBlock 10] = 0 ∨
      ∃ pl : Placement, some pl ∈ layout ⟨100, 100⟩ [textBlock 10, breakBlock 10] ∧
        pl.page = lastPage ⟨100, 100⟩ [textBlock 10, breakBlock 10]) := by
  have hl : layout ⟨100, 100⟩ [textBlock 10, breakBlock 10] =
      [some ⟨0, 0, 10, none⟩, none] := by
    norm_num [layout, paginate, step, scanFragments, scanStep, textBlock, breakBlock]
  have hp : lastPage ⟨100, 100⟩ [textBlock 10, breakBlock 10] = 1 := by
    norm_num [lastPage, stateAfter, step, scanFragments, scanStep, textBlock, breakBlock]
  refine ⟨hl, hp, ?_⟩
  rw [hl, hp]
  simp

/-- C10, amended: for a non-empty block sequence, some block is drawn on the
last page started exactly when the last block of the sequence is a drawn (text
or image) block; after a final page-break block the last page is empty. -/
theorem C10_last_page_nonempty_iff (body : QSize) (init : List Block) (b : Block) :
    (∃ pl : Placement, some pl ∈ layout body (init ++ [b]) ∧
        pl.page = lastPage body (init ++ [b])) ↔ isDrawn b = true := by
  constructor
  · rintro ⟨pl, hmem, hpage⟩
    by_contra hd
    have hk : (scanFragments b).isBreak = true := by simpa [isDrawn] using hd
    rw [layout, paginate_append, List.mem_append] at hmem
    rw [lastPage, stateAfter_append] at hpage
    have hlast : stateAfter body (stateAfter body ⟨0, 0⟩ init) [b] =
        ⟨(stateAfter body ⟨0, 0⟩ init).page + 1, 0⟩ := by
      show (step body _ b).1 = _
      rw [step_break body _ b hk]
    rw [hlast] at hpage
    rcases hmem with hmem | hmem
    · have := paginate_page_le body init _ pl hmem
      simp only at hpage
      omega
    · simp [paginate, step_break body _ b hk] at hmem
  · intro hd
    refine ⟨⟨placePage body (stateAfter body ⟨0, 0⟩ init) (drawnHeight body b),
      placeY body (stateAfter body ⟨0, 0⟩ init) (drawnHeight body b),
      drawnHeight body b, drawnImage body b⟩, ?_, ?_⟩
    · rw [layout, paginate_append, List.mem_append]
      right
      simp [paginate, step_drawn body _ b hd]
    · rw [lastPage, stateAfter_append]
      show _ = (step body _ b).1.page
      rw [step_drawn body _ b hd]

/-! ## The size of an image -/

theorem toInt32_of_range (x : Int) (h0 : 0 ≤ x) (h1 : x < 2147483648) : toInt32 x = x := by
  unfold toInt32
  omega

/-- The scaled size of a view box with positive sides in a body whose sides are
non-negative 32-bit integers: one side is the side of the body, the other is the
proportional value rounded down. -/
theorem scaled_bounds (vb body : QSize) (hw : 0 < vb.wd) (hh : 0 < vb.ht)
    (hbw : 0 ≤ body.wd) (hbw2 : body.wd < 2147483648)
    (hbh : 0 ≤ body.ht) (hbh2 : body.ht < 2147483648) :
    ((vb.scaled body).ht = body.ht ∧ 0 ≤ (vb.scaled body).wd ∧
        (vb.scaled body).wd ≤ body.wd ∧
        (vb.scaled body).wd * vb.ht ≤ (vb.scaled body).ht * vb.wd ∧
        (vb.scaled body).ht * vb.wd < ((vb.scaled body).wd + 1) * vb.ht) ∨
    ((vb.scaled body).wd = body.wd ∧ 0 ≤ (vb.scaled body).ht ∧
        (vb.scaled body).ht ≤ body.ht ∧
        (vb.scaled body).ht * vb.wd ≤ (vb.scaled body).wd * vb.ht ∧
        (vb.scaled body).wd * vb.ht < ((vb.scaled body).ht + 1) * vb.wd) := by
  have hz : ¬ (vb.wd = 0 ∨ vb.ht = 0) := by omega
  have e1 : Int.tdiv (body.ht * vb.wd) vb.ht = body.ht * vb.wd / vb.ht :=
    Int.tdiv_eq_ediv (mul_nonneg hbh hw.le) hh.le
  have e2 : Int.tdiv (body.wd * vb.ht) vb.wd = body.wd * vb.ht / vb.wd :=
    Int.tdiv_eq_ediv (mul_nonneg hbw hh.le) hw.le
  have r0 : 0 ≤ body.ht * vb.wd / vb.ht := Int.ediv_nonneg (mul_nonneg hbh hw.le) hh.le
  have r1 : body.ht * vb.wd / vb.ht * vb.ht ≤ body.ht * vb.wd :=
    Int.ediv_mul_le _ (ne_of_gt hh)
  have r2 : body.ht * vb.wd < (body.ht * vb.wd / vb.ht + 1) * vb.ht :=
    Int.lt_ediv_add_one_mul_self _ hh
  have q0 : 0 ≤ body.wd * vb.ht / vb.wd := Int.ediv_nonneg (mul_nonneg hbw hh.le) hw.le
  have q1 : body.wd * vb.ht / vb.wd * vb.wd ≤ body.wd * vb.ht :=
    Int.ediv_mul_le _ (ne_of_gt hw)
  have q2 : body.wd * vb.ht < (body.wd * vb.ht / vb.wd + 1) * vb.wd :=
    Int.lt_ediv_add_one_mul_self _ hw
  by_cases hc : body.ht * vb.wd / vb.ht ≤ body.wd
  · left
    have ht : toInt32 (body.ht * vb.wd / vb.ht) = body.ht * vb.wd / vb.ht :=
      toInt32_of_range _ r0 (by omega)
    have hs : vb.scaled body = ⟨body.ht * vb.wd / vb.ht, body.ht⟩ := by
      simp only [QSize.scaled, hz, if_false, e1, hc, if_true, ht]
    rw [hs]
    exact ⟨rfl, r0, hc, r1, r2⟩
  · right
    have hgt : body.wd + 1 ≤ body.ht * vb.wd / vb.ht := by omega
    have h3 : (body.wd + 1) * vb.ht ≤ body.ht * vb.wd :=
      le_trans (mul_le_mul_of_nonneg_right hgt hh.le) r1
    have h4 : body.wd * vb.ht / vb.wd * vb.wd < body.ht * vb.wd := by nlinarith
    have h5 : body.wd * vb.ht / vb.wd < body.ht := lt_of_mul_lt_mul_right h4 hw.le
    have ht : toInt32 (body.wd * vb.ht / vb.wd) = body.wd * vb.ht / vb.wd :=
      toInt32_of_range _ q0 (by omega)
    have hs : vb.scaled body = ⟨body.wd, body.wd * vb.ht / vb.wd⟩ := by
      simp only [QSize.scaled, hz, if_false, e1, e2, hc, ht]
    rw [hs]
    exact ⟨rfl, q0, h5.le, q1, q2⟩

/-- C8, as stated, fails: an image of view box 3 x 2 in a body of 100 x 100 is
rendered at 100 x 66, and 100 / 66 is not 3 / 2. -/
theorem C8_counterexample :
    layout ⟨100, 100⟩ [imageBlock ⟨3, 2⟩ 10] = [some ⟨0, 0, 66, some ⟨100, 66⟩⟩] ∧
    (⟨3, 2⟩ : QSize).scaled ⟨100, 100⟩ = ⟨100, 66⟩ ∧
    ((((⟨3, 2⟩ : QSize).scaled ⟨100, 100⟩).wd : ℚ) /
        ((((⟨3, 2⟩ : QSize).scaled ⟨100, 100⟩).ht : Int) : ℚ)) ≠ (3 : ℚ) / 2 := by
  have hs : (⟨3, 2⟩ : QSize).scaled ⟨100, 100⟩ = ⟨100, 66⟩ := by decide
  refine ⟨?_, hs, ?_⟩
  · have hf : scanFragments (imageBlock ⟨3, 2⟩ 10) = ⟨true, true, false, ⟨3, 2⟩⟩ := rfl
    simp only [layout, paginate, step, hf, hs]
    norm_num
  · rw [hs]
    norm_num

/-- C8, amended: for an image block whose view box has positive sides, in a
page body whose sides are non-negative 32-bit integers, the size `(w, h)` the
loop renders it at has the source aspect ratio up to the rounding down of one
side to an integer: either `h` is the body height, `w` fits the body width and
`w * sh <= h * sw < (w + 1) * sh`, or `w` is the body width, `h` fits the body
height and `h * sw <= w * sh < (h + 1) * sw`. -/
theorem C8_aspect_ratio_up_to_rounding (body : QSize) (st : State) (b : Block)
    (hd : isDrawn b = true) (hi : (scanFragments b).isImage = true)
    (hw : 0 < (scanFragments b).imageFormat.wd) (hh : 0 < (scanFragments b).imageFormat.ht)
    (hbw : 0 ≤ body.wd) (hbw2 : body.wd < 2147483648)
    (hbh : 0 ≤ body.ht) (hbh2 : body.ht < 2147483648) :
    ∃ (pl : Placement) (s : QSize),
      (step body st b).2 = some pl ∧ pl.image = some s ∧ pl.height = (s.ht : ℚ) ∧
      ((s.ht = body.ht ∧ 0 ≤ s.wd ∧ s.wd ≤ body.wd ∧
          s.wd * (scanFragments b).imageFormat.ht ≤ s.ht * (scanFragments b).imageFormat.wd ∧
          s.ht * (scanFragments b).imageFormat.wd <
            (s.wd + 1) * (scanFragments b).imageFormat.ht) ∨
       (s.wd = body.wd ∧ 0 ≤ s.ht ∧ s.ht ≤ body.ht ∧
          s.ht * (scanFragments b).imageFormat.wd ≤ s.wd * (scanFragments b).imageFormat.ht ∧
          s.wd * (scanFragments b).imageFormat.ht <
            (s.ht + 1) * (scanFragments b).imageFormat.wd)) := by
  refine ⟨⟨placePage body st (drawnHeight body b), placeY body st (drawnHeight body b),
    drawnHeight body b, drawnImage body b⟩, (scanFragments b).imageFormat.scaled body,
    ?_, ?_, ?_, ?_⟩
  · rw [step_drawn body st b hd]
  · simp [drawnImage, hi]
  · simp [drawnHeight, hi]
  · exact scaled_bounds _ body hw hh hbw hbw2 hbh hbh2

/-- Instance of the amended C8: view box 3 x 2 in a body of 100 x 100. -/
theorem C8_aspect_ratio_up_to_rounding_witness :
    ∃ (pl : Placement) (s : QSize),
      (step ⟨100, 100⟩ ⟨0, 0⟩ (imageBlock ⟨3, 2⟩ 10)).2 = some pl ∧ pl.image = some s ∧
      pl.height = (s.ht : ℚ) ∧
      ((s.ht = (⟨100, 100⟩ : QSize).ht ∧ 0 ≤ s.wd ∧ s.wd ≤ (⟨100, 100⟩ : QSize).wd ∧
          s.wd * (scanFragments (imageBlock ⟨3, 2⟩ 10)).imageFormat.ht ≤
            s.ht * (scanFragments (imageBlock ⟨3, 2⟩ 10)).imageFormat.wd ∧
          s.ht * (scanFragments (imageBlock ⟨3, 2⟩ 10)).imageFormat.wd <
            (s.wd + 1) * (scanFragments (imageBlock ⟨3, 2⟩ 10)).imageFormat.ht) ∨
       (s.wd = (⟨100, 100⟩ : QSize).wd ∧ 0 ≤ s.ht ∧ s.ht ≤ (⟨100, 100⟩ : QSize).ht ∧
          s.ht * (scanFragments (imageBlock ⟨3, 2⟩ 10)).imageFormat.wd ≤
            s.wd * (scanFragments (imageBlock ⟨3, 2⟩ 10)).imageFormat.ht ∧
          s.wd * (scanFragments (imageBlock ⟨3, 2⟩ 10)).imageFormat.ht <
            (s.ht + 1) * (scanFragments (imageBlock ⟨3, 2⟩ 10)).imageFormat.wd)) :=
  C8_aspect_ratio_up_to_rounding ⟨100, 100⟩ ⟨0, 0⟩ (imageBlock ⟨3, 2⟩ 10) rfl rfl
    (by decide) (by decide) (by decide) (by decide) (by decide) (by decide)

/-! ## The document builder -/

theorem getElem?_findIdx_eq_find? {α : Type} (p : α → Bool) (l : List α) :
    l[l.findIdx p]? = l.find? p := by
  induction l with
  | nil => simp
  | cons a as ih =>
    rw [List.findIdx_cons, List.find?_cons]
    cases h : p a
    · simpa using ih
    · simp

/-- Past the found position the loop over the descriptions skips nothing. -/
theorem descLoop_past (formIt : Nat) (l : List Description) :
    ∀ it : Nat, formIt < it → descLoop formIt it l = l.flatMap describedPieces := by
  induction l with
  | nil => intro it _; rfl
  | cons d rest ih =>
    intro it hlt
    have hne : it ≠ formIt := by omega
    simp only [descLoop, hne, ne_eq, not_false_eq_true, if_true, List.flatMap_cons]
    rw [ih (it + 1) (by omega)]
    rfl

/-- The loop over the descriptions emits every description but the one at the
position found by the search. -/
theorem descLoop_eq_eraseP (p : Description → Bool) (l : List Description) :
    ∀ it : Nat, descLoop (it + l.findIdx p) it l = (l.eraseP p).flatMap describedPieces := by
  induction l with
  | nil => intro it; rfl
  | cons d rest ih =>
    intro it
    rw [List.findIdx_cons, List.eraseP_cons]
    cases h : p d
    · have hne : it ≠ it + (List.findIdx p rest + 1) := by omega
      have hidx : it + (List.findIdx p rest + 1) = (it + 1) + List.findIdx p rest := by omega
      simp only [cond_false, descLoop, hne, ne_eq, not_false_eq_true, if_true,
        List.flatMap_cons]
      rw [hidx, ih (it + 1)]
      rfl
    · simp only [cond_true, descLoop, Nat.add_zero, ne_eq, not_true_eq_false, if_false,
        List.nil_append]
      exact descLoop_past it rest (it + 1) (by omega)

/-- The pieces the builder emits for one form are the template of the form. -/
theorem formPieces_eq_formTemplate (form : Form) (img : TmpFile) :
    formPieces form img = formTemplate form img := by
  have hp : (fun desc : Description => form.tabName == desc.id) =
      (fun d : Description => d.id == form.tabName) := by
    funext d
    exact Bool.beq_comm
  have h2 := descLoop_eq_eraseP (fun d : Description => d.id == form.tabName) form.desc 0
  simp only [Nat.zero_add] at h2
  simp only [formPieces, formTemplate, hp, getElem?_findIdx_eq_find?, h2]

theorem buildForms_eq (m_images : List TmpFile) (forms : List Form) :
    ∀ i : Nat, i + forms.length ≤ m_images.length →
      buildForms m_images i forms =
        some (List.zipWith formPieces forms (m_images.drop i)).flatten := by
  induction forms with
  | nil => intro i _; simp [buildForms]
  | cons f rest ih =>
    intro i hlen
    simp only [List.length_cons] at hlen
    have hi : i < m_images.length := by omega
    have hd : m_images.drop i = m_images[i] :: m_images.drop (i + 1) :=
      List.drop_eq_getElem_cons hi
    simp only [buildForms, List.getElem?_eq_getElem hi, ih (i + 1) (by omega), hd,
      List.zipWith_cons_cons, List.flatten_cons]

theorem createImages_eq (forms : List Form) :
    ∀ m_images : List TmpFile,
      createImages forms m_images = m_images ++ forms.map TmpFile.mk := by
  induction forms with
  | nil => intro m; simp [createImages]
  | cons f rest ih =>
    intro m
    have := ih (m ++ [⟨f⟩])
    simp only [createImages] at this ⊢
    simp [List.foldl_cons, this]

/-- C7: with an image for every form, the builder emits the project
description and then, form by form and paired with the image at the same
position, the template of the form: page-break marker, heading with the tab
name, image, then the text of the first description whose id is the tab name
(if any) right after the image, then every other description in its original
order under a heading with its id. A form without descriptions yields the page
break, the heading and the image only. -/
theorem C7_builder_emits_form_template (cfg : Project) (m_images : List TmpFile)
    (hlen : cfg.form.length ≤ m_images.length) :
    buildDoc cfg m_images =
      some (Piece.richText cfg.description ::
        (List.zipWith formTemplate cfg.form m_images).flatten) ∧
    (∀ (form : Form) (img : TmpFile), formPieces form img = formTemplate form img) ∧
    (∀ (name : String) (img : TmpFile),
      formPieces ⟨name, []⟩ img =
        [Piece.plain "\n", Piece.pageBreak, Piece.header (name ++ "\n\n"),
          Piece.image img, Piece.plain "\n"]) := by
  refine ⟨?_, formPieces_eq_formTemplate, ?_⟩
  · have hf : (formPieces : Form → TmpFile → List Piece) = formTemplate := by
      funext form img
      exact formPieces_eq_formTemplate form img
    have hb := buildForms_eq m_images cfg.form 0 (by omega)
    simp only [List.drop_zero, hf] at hb
    simp only [buildDoc, hb]
  · intro name img
    simp [formPieces, descLoop]

/-- Instance of C7: one form named Main whose second description is its own. -/
theorem C7_builder_emits_form_template_witness :
    buildDoc ⟨"about", [⟨"Main", [⟨"Button", "press"⟩, ⟨"Main", "the main form"⟩]⟩]⟩
        [⟨⟨"Main", [⟨"Button", "press"⟩, ⟨"Main", "the main form"⟩]⟩⟩] =
      some (Piece.richText "about" ::
        (List.zipWith formTemplate
          [⟨"Main", [⟨"Button", "press"⟩, ⟨"Main", "the main form"⟩]⟩]
          [⟨⟨"Main", [⟨"Button", "press"⟩, ⟨"Main", "the main form"⟩]⟩⟩]).flatten) ∧
    (List.zipWith formTemplate
          [⟨"Main", [⟨"Button", "press"⟩, ⟨"Main", "the main form"⟩]⟩]
          [⟨⟨"Main", [⟨"Button", "press"⟩, ⟨"Main", "the main form"⟩]⟩⟩]).flatten =
      [Piece.plain "\n", Piece.pageBreak, Piece.header "Main\n\n",
        Piece.image ⟨⟨"Main", [⟨"Button", "press"⟩, ⟨"Main", "the main form"⟩]⟩⟩,
        Piece.plain "\n", Piece.plain "\n\n", Piece.richText "the main form",
        Piece.plain "\n\n", Piece.h2 "Button\n\n", Piece.richText "press",
        Piece.plain "\n\n"] :=
  ⟨(C7_builder_emits_form_template
      ⟨"about", [⟨"Main", [⟨"Button", "press"⟩, ⟨"Main", "the main form"⟩]⟩]⟩
      [⟨⟨"Main", [⟨"Button", "press"⟩, ⟨"Main", "the main form"⟩]⟩⟩] (by decide)).1,
    by decide⟩

theorem imagesOf_append (xs ys : List Piece) :
    imagesOf (xs ++ ys) = imagesOf xs ++ imagesOf ys := by
  induction xs with
  | nil => rfl
  | cons a as ih =>
    cases a <;> simp [imagesOf, ih]

theorem imagesOf_described (l : List Description) :
    imagesOf (l.flatMap describedPieces) = [] := by
  induction l with
  | nil => rfl
  | cons d rest ih =>
    rw [List.flatMap_cons, imagesOf_append, ih]
    rfl

/-- The pieces of one form reference exactly one image file, the one the form is
paired with. -/
theorem imagesOf_formPieces (form : Form) (img : TmpFile) :
    imagesOf (formPieces form img) = [img] := by
  rw [formPieces_eq_formTemplate]
  unfold formTemplate
  rw [imagesOf_append, imagesOf_append, imagesOf_described]
  cases form.desc.find? (fun d => d.id == form.tabName) <;> rfl

theorem imagesOf_zipWith_formPieces (forms : List Form) :
    ∀ images : List TmpFile, forms.length = images.length →
      imagesOf (List.zipWith formPieces forms images).flatten = images := by
  induction forms with
  | nil =>
    intro images h
    cases images with
    | nil => rfl
    | cons a as => simp at h
  | cons f rest ih =>
    intro images h
    cases images with
    | nil => simp at h
    | cons a as =>
      simp only [List.length_cons, Nat.add_right_cancel_iff] at h
      rw [List.zipWith_cons_cons, List.flatten_cons, imagesOf_append, imagesOf_formPieces,
        ih as h]
      rfl

/-- C9: run on an empty image list, `createImages` yields exactly one image per
form, the `k`-th one drawn from the `k`-th form; the builder of `exportToDoc`
then succeeds (every `m_images.at( i )` is in range) and pairs the `k`-th form
with the `k`-th image: the pieces of a form reference the image it is paired
with and no other, and the images the document references, in order, are the
images drawn from the forms, in form order. -/
theorem C9_one_image_per_form (cfg : Project) :
    (createImages cfg.form []).length = cfg.form.length ∧
    (∀ k : Nat, (createImages cfg.form [])[k]? = (cfg.form[k]?).map TmpFile.mk) ∧
    exportToDoc_build cfg [] =
      some (Piece.richText cfg.description ::
        (List.zipWith formPieces cfg.form (createImages cfg.form [])).flatten) ∧
    (∀ (form : Form) (img : TmpFile), imagesOf (formPieces form img) = [img]) ∧
    (∃ pieces : List Piece, exportToDoc_build cfg [] = some pieces ∧
      imagesOf pieces = createImages cfg.form [] ∧
      imagesOf pieces = cfg.form.map TmpFile.mk) := by
  have hc : createImages cfg.form [] = cfg.form.map TmpFile.mk := by
    simpa using createImages_eq cfg.form []
  have hb := buildForms_eq (createImages cfg.form []) cfg.form 0 (by simp [hc])
  simp only [List.drop_zero] at hb
  have hdoc : exportToDoc_build cfg [] =
      some (Piece.richText cfg.description ::
        (List.zipWith formPieces cfg.form (createImages cfg.form [])).flatten) := by
    simp only [exportToDoc_build, buildDoc, hb]
  have himg : imagesOf (Piece.richText cfg.description ::
      (List.zipWith formPieces cfg.form (createImages cfg.form [])).flatten) =
      createImages cfg.form [] := by
    show imagesOf (List.zipWith formPieces cfg.form (createImages cfg.form [])).flatten = _
    exact imagesOf_zipWith_formPieces cfg.form _ (by simp [hc])
  refine ⟨by simp [hc], ?_, hdoc, imagesOf_formPieces, ⟨_, hdoc, himg, ?_⟩⟩
  · intro k
    rw [hc, List.getElem?_map]
  · rw [himg, hc]

/-! ## The polyline -/

theorem makePath_lines (eq : QPointF → QPointF → Bool) (d : FormPolylinePrivate) :
    (makePath eq d).m_lines = d.m_lines := by
  unfold makePath
  simp only
  split <;> rfl

/-- A line that continues the chain, or the first line, is appended at the end. -/
theorem appendLine_lines_of_fits (eq : QPointF → QPointF → Bool) (line : QLineF)
    (d : FormPolylinePrivate)
    (hfit : ∀ l : QLineF, d.m_lines.getLast? = some l → eq l.p2 line.p1 = true) :
    (appendLine eq line d).m_lines = d.m_lines ++ [line] := by
  unfold appendLine
  by_cases he : d.m_lines.isEmpty = true
  · have hnil : d.m_lines = [] := by simpa using he
    simp [he, hnil, makePath_lines]
  · have hne : d.m_lines.isEmpty = false := by simpa using he
    cases hl : d.m_lines.getLast? with
    | none => simp [hne, hl, makePath_lines]
    | some l => simp [hne, hl, hfit l hl, makePath_lines]

theorem foldl_appendLine_lines (eq : QPointF → QPointF → Bool)
    (hrefl : ∀ p : QPointF, eq p p = true) (lns : List QLineF) :
    ∀ d : FormPolylinePrivate, connected lns →
      (∀ l line : QLineF, d.m_lines.getLast? = some l → lns.head? = some line →
        line.p1 = l.p2) →
      (lns.foldl (fun s line => appendLine eq line s) d).m_lines = d.m_lines ++ lns := by
  induction lns with
  | nil => intro d _ _; simp
  | cons a rest ih =>
    intro d hc hjoin
    have hstep : (appendLine eq a d).m_lines = d.m_lines ++ [a] := by
      apply appendLine_lines_of_fits
      intro l hl
      rw [hjoin l a hl rfl]
      exact hrefl l.p2
    have hc2 : connected rest := by
      cases rest with
      | nil => trivial
      | cons b bs => exact hc.2
    have hjoin2 : ∀ l line : QLineF, (appendLine eq a d).m_lines.getLast? = some l →
        rest.head? = some line → line.p1 = l.p2 := by
      intro l line hl hh
      rw [hstep, List.getLast?_concat] at hl
      cases rest with
      | nil => simp at hh
      | cons b bs =>
        simp only [List.head?_cons, Option.some.injEq] at hh hl
        subst hh
        subst hl
        exact hc.1
    rw [List.foldl_cons, ih (appendLine eq a d) hc2 hjoin2, hstep]
    simp

/-- C12: for a connected chain of lines, `setLines` on a polyline that holds no
lines makes `lines()` return exactly that list, in the same order and with every
line in its orientation; `eq` is the comparison of points, true on equal points. -/
theorem C12_setLines_keeps_connected_chain (eq : QPointF → QPointF → Bool)
    (hrefl : ∀ p : QPointF, eq p p = true) (lns : List QLineF) (hc : connected lns)
    (d : FormPolylinePrivate) (he : d.m_lines = []) :
    lines (setLines eq lns d) = lns := by
  unfold lines setLines
  rw [foldl_appendLine_lines eq hrefl lns _ hc]
  · simp [he]
  · intro l line hl _
    simp [he] at hl

/-- Instance of C12: two lines from (0, 0) over (1, 0) to (1, 2), set on a
polyline without lines, compared exactly. -/
theorem C12_setLines_keeps_connected_chain_witness :
    lines (setLines pointEq [⟨⟨0, 0⟩, ⟨1, 0⟩⟩, ⟨⟨1, 0⟩, ⟨1, 2⟩⟩]
      ⟨[], [], ⟨3, ⟨0, 0⟩, false⟩, ⟨3, ⟨0, 0⟩, false⟩, false, [], false⟩) =
      [⟨⟨0, 0⟩, ⟨1, 0⟩⟩, ⟨⟨1, 0⟩, ⟨1, 2⟩⟩] :=
  C12_setLines_keeps_connected_chain pointEq (fun p => by simp [pointEq])
    [⟨⟨0, 0⟩, ⟨1, 0⟩⟩, ⟨⟨1, 0⟩, ⟨1, 2⟩⟩] ⟨rfl, trivial⟩
    ⟨[], [], ⟨3, ⟨0, 0⟩, false⟩, ⟨3, ⟨0, 0⟩, false⟩, false, [], false⟩ rfl

theorem makePathLoop_points (eq : QPointF → QPointF → Bool) (size : Nat)
    (ls : List QLineF) :
    ∀ (i : Nat) (acc : PathAcc),
      (makePathLoop eq size i ls acc).points = acc.points ++ endPoints ls := by
  induction ls with
  | nil => intro i acc; simp [makePathLoop, endPoints]
  | cons a rest ih =>
    intro i acc
    rw [makePathLoop, ih]
    simp only [endPoints, List.flatMap_cons]
    split_ifs <;> simp

theorem makePath_polygon (eq : QPointF → QPointF → Bool) (d : FormPolylinePrivate) :
    (makePath eq d).m_polygon = endPoints d.m_lines := by
  have h := makePathLoop_points eq d.m_lines.length d.m_lines 0 ⟨[], ⟨0, 0⟩, [], d.m_closed⟩
  unfold makePath
  simp only
  split <;> simpa using h

theorem endPoints_map (f : QPointF → QPointF) (lns : List QLineF) :
    endPoints (lns.map (fun l => (⟨f l.p1, f l.p2⟩ : QLineF))) = (endPoints lns).map f := by
  induction lns with
  | nil => rfl
  | cons a rest ih =>
    simp only [endPoints, List.map_cons, List.flatMap_cons] at ih ⊢
    rw [ih]
    simp

/-- The extremes of the images of the points under a map that is strictly
increasing in each coordinate are the images of the extremes. -/
theorem foldl_extremesStep_map (fx fy : ℚ → ℚ) (hx : ∀ a b : ℚ, fx a < fx b ↔ a < b)
    (hy : ∀ a b : ℚ, fy a < fy b ↔ a < b) (ps : List QPointF) :
    ∀ e : Extremes,
      (ps.map (fun p => (⟨fx p.x, fy p.y⟩ : QPointF))).foldl extremesStep
          ⟨fx e.minx, fx e.maxx, fy e.miny, fy e.maxy⟩ =
        ⟨fx (ps.foldl extremesStep e).minx, fx (ps.foldl extremesStep e).maxx,
         fy (ps.foldl extremesStep e).miny, fy (ps.foldl extremesStep e).maxy⟩ := by
  induction ps with
  | nil => intro e; rfl
  | cons p rest ih =>
    intro e
    have hstep : extremesStep ⟨fx e.minx, fx e.maxx, fy e.miny, fy e.maxy⟩ ⟨fx p.x, fy p.y⟩ =
        ⟨fx (extremesStep e p).minx, fx (extremesStep e p).maxx,
         fy (extremesStep e p).miny, fy (extremesStep e p).maxy⟩ := by
      by_cases h1 : p.x < e.minx <;> by_cases h2 : e.maxx < p.x <;>
        by_cases h3 : p.y < e.miny <;> by_cases h4 : e.maxy < p.y <;>
        simp [extremesStep, hx, hy, h1, h2, h3, h4]
    simp only [List.map_cons, List.foldl_cons]
    rw [hstep, ih]

theorem updatePoint_eq_cornerMap (oldR newR : QRectF) (how : 0 < oldR.w) (hoh : 0 < oldR.h)
    (hnw : 0 < newR.w) (hnh : 0 < newR.h) (p : QPointF) :
    updatePoint oldR newR (oldR.w / newR.w) (oldR.h / newR.h) p = cornerMap oldR newR p := by
  have h1 : oldR.w ≠ 0 := ne_of_gt how
  have h2 : oldR.h ≠ 0 := ne_of_gt hoh
  have h3 : newR.w ≠ 0 := ne_of_gt hnw
  have h4 : newR.h ≠ 0 := ne_of_gt hnh
  unfold updatePoint cornerMap
  congr 1
  · field_simp
    ring
  · field_simp
    ring

theorem updateLines_lines (eq : QPointF → QPointF → Bool) (oldR newR : QRectF)
    (d : FormPolylinePrivate) :
    (updateLines eq oldR newR d).m_lines =
      d.m_lines.map (fun line =>
        (⟨updatePoint oldR newR (oldR.w / newR.w) (oldR.h / newR.h) line.p1,
          updatePoint oldR newR (oldR.w / newR.w) (oldR.h / newR.h) line.p2⟩ : QLineF)) := by
  unfold updateLines
  rw [makePath_lines]

/-- The bounding rectangle of the end points after `updateLines`, when `oldR` is
their bounding rectangle before and all four sides are positive. -/
theorem boundingRect_updated (oldR newR : QRectF) (lns : List QLineF)
    (hold : oldR = QPolygonF.boundingRect (endPoints lns))
    (how : 0 < oldR.w) (hoh : 0 < oldR.h) (hnw : 0 < newR.w) (hnh : 0 < newR.h) :
    QPolygonF.boundingRect (endPoints (lns.map (fun line =>
        (⟨updatePoint oldR newR (oldR.w / newR.w) (oldR.h / newR.h) line.p1,
          updatePoint oldR newR (oldR.w / newR.w) (oldR.h / newR.h) line.p2⟩ : QLineF)))) =
      newR := by
  have hmx : 0 < oldR.w / newR.w := div_pos how hnw
  have hmy : 0 < oldR.h / newR.h := div_pos hoh hnh
  have hx : ∀ a b : ℚ, (a - oldR.x) / (oldR.w / newR.w) + newR.x <
      (b - oldR.x) / (oldR.w / newR.w) + newR.x ↔ a < b := by
    intro a b
    rw [add_lt_add_iff_right, div_lt_div_iff_of_pos_right hmx, sub_lt_sub_iff_right]
  have hy : ∀ a b : ℚ, (a - oldR.y) / (oldR.h / newR.h) + newR.y <
      (b - oldR.y) / (oldR.h / newR.h) + newR.y ↔ a < b := by
    intro a b
    rw [add_lt_add_iff_right, div_lt_div_iff_of_pos_right hmy, sub_lt_sub_iff_right]
  rw [endPoints_map (updatePoint oldR newR (oldR.w / newR.w) (oldR.h / newR.h)) lns]
  cases hpts : endPoints lns with
  | nil =>
    rw [hpts] at hold
    rw [hold] at how
    simp [QPolygonF.boundingRect] at how
  | cons p ps =>
    rw [hpts] at hold
    simp only [QPolygonF.boundingRect] at hold
    have hm := foldl_extremesStep_map
      (fun t => (t - oldR.x) / (oldR.w / newR.w) + newR.x)
      (fun t => (t - oldR.y) / (oldR.h / newR.h) + newR.y) hx hy ps ⟨p.x, p.x, p.y, p.y⟩
    have hX : oldR.x = (ps.foldl extremesStep ⟨p.x, p.x, p.y, p.y⟩).minx := by rw [hold]
    have hY : oldR.y = (ps.foldl extremesStep ⟨p.x, p.x, p.y, p.y⟩).miny := by rw [hold]
    have hW : oldR.w = (ps.foldl extremesStep ⟨p.x, p.x, p.y, p.y⟩).maxx -
        (ps.foldl extremesStep ⟨p.x, p.x, p.y, p.y⟩).minx := by rw [hold]
    have hH : oldR.h = (ps.foldl extremesStep ⟨p.x, p.x, p.y, p.y⟩).maxy -
        (ps.foldl extremesStep ⟨p.x, p.x, p.y, p.y⟩).miny := by rw [hold]
    have h1 : oldR.w ≠ 0 := ne_of_gt how
    have h2 : oldR.h ≠ 0 := ne_of_gt hoh
    have h3 : newR.w ≠ 0 := ne_of_gt hnw
    have h4 : newR.h ≠ 0 := ne_of_gt hnh
    have hf : updatePoint oldR newR (oldR.w / newR.w) (oldR.h / newR.h) =
        (fun q : QPointF => (⟨(q.x - oldR.x) / (oldR.w / newR.w) + newR.x,
          (q.y - oldR.y) / (oldR.h / newR.h) + newR.y⟩ : QPointF)) := rfl
    rw [hf]
    simp only [List.map_cons, QPolygonF.boundingRect]
    simp only at hm
    rw [hm, ← hX, ← hY]
    have e1 : (ps.foldl extremesStep ⟨p.x, p.x, p.y, p.y⟩).maxx - oldR.x = oldR.w := by
      rw [hW, hX]
    have e2 : (ps.foldl extremesStep ⟨p.x, p.x, p.y, p.y⟩).maxy - oldR.y = oldR.h := by
      rw [hH, hY]
    simp only [e1, e2, sub_self, zero_div, zero_add, add_sub_cancel_right]
    have w1 : oldR.w / (oldR.w / newR.w) = newR.w := by field_simp
    have w2 : oldR.h / (oldR.h / newR.h) = newR.h := by field_simp
    rw [w1, w2]

/-- C11: when `oldR` is the bounding rectangle of the end points of the lines
(so the list is not empty) and `oldR` and `newR` have positive width and height,
`updateLines( oldR, newR )` maps every end point by the affine map that sends
the top-left corner of `oldR` to that of `newR` and the bottom-right corner of
`oldR` to that of `newR`, and afterwards the bounding rectangle of the end
points, also as `boundingRect()` reports it, is `newR`. -/
theorem C11_updateLines_maps_onto_newR (eq : QPointF → QPointF → Bool)
    (d : FormPolylinePrivate) (oldR newR : QRectF)
    (hold : oldR = QPolygonF.boundingRect (endPoints d.m_lines))
    (how : 0 < oldR.w) (hoh : 0 < oldR.h) (hnw : 0 < newR.w) (hnh : 0 < newR.h) :
    d.m_lines ≠ [] ∧
    (updateLines eq oldR newR d).m_lines =
      d.m_lines.map (fun line =>
        (⟨cornerMap oldR newR line.p1, cornerMap oldR newR line.p2⟩ : QLineF)) ∧
    cornerMap oldR newR oldR.topLeft = newR.topLeft ∧
    cornerMap oldR newR oldR.bottomRight = newR.bottomRight ∧
    QPolygonF.boundingRect (endPoints (updateLines eq oldR newR d).m_lines) = newR ∧
    (updateLines eq oldR newR d).boundingRect = newR := by
  have h1 : oldR.w ≠ 0 := ne_of_gt how
  have h2 : oldR.h ≠ 0 := ne_of_gt hoh
  have hb := boundingRect_updated oldR newR d.m_lines hold how hoh hnw hnh
  refine ⟨?_, ?_, ?_, ?_, ?_, ?_⟩
  · intro hnil
    rw [hnil] at hold
    rw [hold] at how
    simp [QPolygonF.boundingRect, endPoints] at how
  · rw [updateLines_lines]
    apply List.map_congr_left
    intro line _
    rw [updatePoint_eq_cornerMap oldR newR how hoh hnw hnh,
      updatePoint_eq_cornerMap oldR newR how hoh hnw hnh]
  · simp [cornerMap, QRectF.topLeft]
  · simp only [cornerMap, QRectF.bottomRight, add_sub_cancel_left]
    congr 1
    · field_simp
    · field_simp
  · rw [updateLines_lines]
    exact hb
  · unfold FormPolylinePrivate.boundingRect
    rw [updateLines, makePath_polygon]
    exact hb

/-- Instance of C11: one line from (0, 0) to (2, 4), resized from the rectangle
(0, 0, 2, 4) to the rectangle (1, 1, 4, 2). -/
theorem C11_updateLines_maps_onto_newR_witness :
    (⟨[⟨⟨0, 0⟩, ⟨2, 4⟩⟩], [⟨0, 0⟩, ⟨2, 4⟩], ⟨3, ⟨-3, -3⟩, false⟩, ⟨3, ⟨-1, 1⟩, false⟩,
        false, [⟨0, 0⟩, ⟨2, 4⟩], false⟩ : FormPolylinePrivate).m_lines ≠ [] ∧
    (updateLines pointEq ⟨0, 0, 2, 4⟩ ⟨1, 1, 4, 2⟩
        ⟨[⟨⟨0, 0⟩, ⟨2, 4⟩⟩], [⟨0, 0⟩, ⟨2, 4⟩], ⟨3, ⟨-3, -3⟩, false⟩, ⟨3, ⟨-1, 1⟩, false⟩,
          false, [⟨0, 0⟩, ⟨2, 4⟩], false⟩).m_lines =
      (⟨[⟨⟨0, 0⟩, ⟨2, 4⟩⟩], [⟨0, 0⟩, ⟨2, 4⟩], ⟨3, ⟨-3, -3⟩, false⟩, ⟨3, ⟨-1, 1⟩, false⟩,
        false, [⟨0, 0⟩, ⟨2, 4⟩], false⟩ : FormPolylinePrivate).m_lines.map (fun line =>
        (⟨cornerMap ⟨0, 0, 2, 4⟩ ⟨1, 1, 4, 2⟩ line.p1,
          cornerMap ⟨0, 0, 2, 4⟩ ⟨1, 1, 4, 2⟩ line.p2⟩ : QLineF)) ∧
    cornerMap ⟨0, 0, 2, 4⟩ ⟨1, 1, 4, 2⟩ (⟨0, 0, 2, 4⟩ : QRectF).topLeft =
      (⟨1, 1, 4, 2⟩ : QRectF).topLeft ∧
    cornerMap ⟨0, 0, 2, 4⟩ ⟨1, 1, 4, 2⟩ (⟨0, 0, 2, 4⟩ : QRectF).bottomRight =
      (⟨1, 1, 4, 2⟩ : QRectF).bottomRight ∧
    QPolygonF.boundingRect (endPoints (updateLines pointEq ⟨0, 0, 2, 4⟩ ⟨1, 1, 4, 2⟩
        ⟨[⟨⟨0, 0⟩, ⟨2, 4⟩⟩], [⟨0, 0⟩, ⟨2, 4⟩], ⟨3, ⟨-3, -3⟩, false⟩, ⟨3, ⟨-1, 1⟩, false⟩,
          false, [⟨0, 0⟩, ⟨2, 4⟩], false⟩).m_lines) = ⟨1, 1, 4, 2⟩ ∧
    (updateLines pointEq ⟨0, 0, 2, 4⟩ ⟨1, 1, 4, 2⟩
        ⟨[⟨⟨0, 0⟩, ⟨2, 4⟩⟩], [⟨0, 0⟩, ⟨2, 4⟩], ⟨3, ⟨-3, -3⟩, false⟩, ⟨3, ⟨-1, 1⟩, false⟩,
          false, [⟨0, 0⟩, ⟨2, 4⟩], false⟩).boundingRect = ⟨1, 1, 4, 2⟩ :=
  C11_updateLines_maps_onto_newR pointEq
    ⟨[⟨⟨0, 0⟩, ⟨2, 4⟩⟩], [⟨0, 0⟩, ⟨2, 4⟩], ⟨3, ⟨-3, -3⟩, false⟩, ⟨3, ⟨-1, 1⟩, false⟩,
      false, [⟨0, 0⟩, ⟨2, 4⟩], false⟩
    ⟨0, 0, 2, 4⟩ ⟨1, 1, 4, 2⟩
    (by norm_num [QPolygonF.boundingRect, endPoints, extremesStep])
    (by norm_num) (by norm_num) (by norm_num) (by norm_num)

/-! ## Rounding to the nearest double -/

theorem roundHalfEven_intCast (n : ℤ) : roundHalfEven (n : ℚ) = n := by
  simp [roundHalfEven]

theorem roundHalfEven_of_near (q : ℚ) (n : ℤ) (h1 : (n : ℚ) - 1 / 2 < q)
    (h2 : q < (n : ℚ) + 1 / 2) : roundHalfEven q = n := by
  by_cases hq : (n : ℚ) ≤ q
  · have hf : ⌊q⌋ = n := Int.floor_eq_iff.2 ⟨hq, by linarith⟩
    have hlt : q - (n : ℚ) < 1 / 2 := by linarith
    simp only [roundHalfEven, hf, hlt, if_true]
  · have hq2 : q < (n : ℚ) := lt_of_not_le hq
    have hf : ⌊q⌋ = n - 1 := Int.floor_eq_iff.2 ⟨by push_cast; linarith, by push_cast; linarith⟩
    have h3 : ¬ (q - ((n - 1 : ℤ) : ℚ) < 1 / 2) := by push_cast; linarith
    have h4 : 1 / 2 < q - ((n - 1 : ℤ) : ℚ) := by push_cast; linarith
    simp only [roundHalfEven, hf, h3, h4, if_false, if_true]
    omega

theorem floor_le_roundHalfEven (q : ℚ) : ⌊q⌋ ≤ roundHalfEven q := by
  unfold roundHalfEven
  split_ifs <;> omega

theorem roundHalfEven_le_floor_add_one (q : ℚ) : roundHalfEven q ≤ ⌊q⌋ + 1 := by
  unfold roundHalfEven
  split_ifs <;> omega

theorem roundHalfEven_mono (a b : ℚ) (hab : a ≤ b) : roundHalfEven a ≤ roundHalfEven b := by
  have hfl : ⌊a⌋ ≤ ⌊b⌋ := Int.floor_mono hab
  rcases lt_or_eq_of_le hfl with hlt | heq
  · calc roundHalfEven a ≤ ⌊a⌋ + 1 := roundHalfEven_le_floor_add_one a
      _ ≤ ⌊b⌋ := by omega
      _ ≤ roundHalfEven b := floor_le_roundHalfEven b
  · have hfr : a - (⌊a⌋ : ℚ) ≤ b - (⌊a⌋ : ℚ) := by linarith
    unfold roundHalfEven
    rw [← heq]
    split_ifs <;> first | omega | (exfalso; linarith)

theorem two_zpow_pos (k : ℤ) : (0 : ℚ) < 2 ^ k := zpow_pos (by norm_num) k

theorem two_zpow_split (e : ℤ) : (2 : ℚ) ^ e = 4503599627370496 * 2 ^ (e - 52) := by
  have h : e = 52 + (e - 52) := by ring
  conv_lhs => rw [h]
  rw [zpow_add₀ (by norm_num : (2 : ℚ) ≠ 0)]
  norm_num

theorem two_zpow_succ (e : ℤ) : (2 : ℚ) ^ (e + 1) = 2 * 2 ^ e := by
  rw [zpow_add₀ (by norm_num : (2 : ℚ) ≠ 0)]
  norm_num
  ring

theorem log_bounds (x : ℚ) (hx : 0 < x) :
    (2 : ℚ) ^ Int.log 2 x ≤ x ∧ x < (2 : ℚ) ^ (Int.log 2 x + 1) := by
  have h1 := Int.zpow_log_le_self (b := 2) (r := x) (by norm_num) hx
  have h2 := Int.lt_zpow_succ_log_self (b := 2) (by norm_num) x
  simp only [Nat.cast_ofNat] at h1 h2
  exact ⟨h1, h2⟩

theorem log_eq_of_bounds (x : ℚ) (e : ℤ) (h1 : (2 : ℚ) ^ e ≤ x) (h2 : x < (2 : ℚ) ^ (e + 1)) :
    Int.log 2 x = e := by
  have hx : 0 < x := lt_of_lt_of_le (two_zpow_pos e) h1
  have a1 := (Int.zpow_le_iff_le_log (b := 2) (by norm_num) (x := e) hx).1
    (by simpa using h1)
  have a2 := (Int.lt_zpow_iff_log_lt (b := 2) (by norm_num) (x := e + 1) hx).1
    (by simpa using h2)
  omega

/-- Evaluation of the rounding of a positive value from its binade and the
nearest multiple of the unit in the last place. -/
theorem roundPos_eq (x : ℚ) (e n : ℤ) (h1 : (2 : ℚ) ^ e ≤ x) (h2 : x < (2 : ℚ) ^ (e + 1))
    (hn1 : (n : ℚ) - 1 / 2 < x / 2 ^ (e - 52)) (hn2 : x / 2 ^ (e - 52) < (n : ℚ) + 1 / 2) :
    roundPos x = (n : ℚ) * 2 ^ (e - 52) := by
  unfold roundPos
  rw [log_eq_of_bounds x e h1 h2, roundHalfEven_of_near _ n hn1 hn2]

theorem roundPos_bounds (x : ℚ) (hx : 0 < x) :
    (2 : ℚ) ^ Int.log 2 x ≤ roundPos x ∧ roundPos x ≤ (2 : ℚ) ^ (Int.log 2 x + 1) := by
  obtain ⟨h1, h2⟩ := log_bounds x hx
  have hu := two_zpow_pos (Int.log 2 x - 52)
  have q1 : ((4503599627370496 : ℤ) : ℚ) ≤ x / 2 ^ (Int.log 2 x - 52) := by
    rw [le_div_iff₀ hu]
    push_cast
    rw [← two_zpow_split]
    exact h1
  have q2 : x / 2 ^ (Int.log 2 x - 52) ≤ ((9007199254740992 : ℤ) : ℚ) := by
    rw [div_le_iff₀ hu]
    push_cast
    have : (9007199254740992 : ℚ) * 2 ^ (Int.log 2 x - 52) = 2 ^ (Int.log 2 x + 1) := by
      rw [two_zpow_succ, two_zpow_split (Int.log 2 x)]
      ring
    rw [this]
    exact h2.le
  have r1 := roundHalfEven_mono _ _ q1
  have r2 := roundHalfEven_mono _ _ q2
  rw [roundHalfEven_intCast] at r1 r2
  have c1 : (4503599627370496 : ℚ) ≤ (roundHalfEven (x / 2 ^ (Int.log 2 x - 52)) : ℚ) := by
    exact_mod_cast r1
  have c2 : (roundHalfEven (x / 2 ^ (Int.log 2 x - 52)) : ℚ) ≤ (9007199254740992 : ℚ) := by
    exact_mod_cast r2
  unfold roundPos
  constructor
  · rw [two_zpow_split (Int.log 2 x)]
    exact mul_le_mul_of_nonneg_right c1 hu.le
  · rw [two_zpow_succ, two_zpow_split (Int.log 2 x)]
    calc (roundHalfEven (x / 2 ^ (Int.log 2 x - 52)) : ℚ) * 2 ^ (Int.log 2 x - 52)
        ≤ 9007199254740992 * 2 ^ (Int.log 2 x - 52) := mul_le_mul_of_nonneg_right c2 hu.le
      _ = 2 * (4503599627370496 * 2 ^ (Int.log 2 x - 52)) := by ring

theorem roundPos_pos (x : ℚ) (hx : 0 < x) : 0 < roundPos x :=
  lt_of_lt_of_le (two_zpow_pos _) (roundPos_bounds x hx).1

theorem roundPos_mono (a b : ℚ) (ha : 0 < a) (hab : a ≤ b) : roundPos a ≤ roundPos b := by
  have hb : 0 < b := lt_of_lt_of_le ha hab
  have hlog : Int.log 2 a ≤ Int.log 2 b := Int.log_mono_right ha hab
  rcases lt_or_eq_of_le hlog with hlt | heq
  · calc roundPos a ≤ (2 : ℚ) ^ (Int.log 2 a + 1) := (roundPos_bounds a ha).2
      _ ≤ (2 : ℚ) ^ Int.log 2 b := zpow_le_zpow_right₀ (by norm_num) (by omega)
      _ ≤ roundPos b := (roundPos_bounds b hb).1
  · unfold roundPos
    rw [heq]
    have hu := two_zpow_pos (Int.log 2 b - 52)
    have hq : a / 2 ^ (Int.log 2 b - 52) ≤ b / 2 ^ (Int.log 2 b - 52) :=
      div_le_div_of_nonneg_right hab hu.le
    have := roundHalfEven_mono _ _ hq
    exact mul_le_mul_of_nonneg_right (by exact_mod_cast this) hu.le

/-- A value with a 53-bit significand is its own rounding. -/
theorem roundPos_of_significand (n k : ℤ) (hn1 : 4503599627370496 ≤ n)
    (hn2 : n < 9007199254740992) : roundPos ((n : ℚ) * 2 ^ k) = (n : ℚ) * 2 ^ k := by
  have hu := two_zpow_pos k
  have c1 : (4503599627370496 : ℚ) ≤ (n : ℚ) := by exact_mod_cast hn1
  have c2 : (n : ℚ) < (9007199254740992 : ℚ) := by exact_mod_cast hn2
  have hk : k = (k + 52) - 52 := by ring
  have b1 : (2 : ℚ) ^ (k + 52) ≤ (n : ℚ) * 2 ^ k := by
    rw [two_zpow_split (k + 52), ← hk]
    exact mul_le_mul_of_nonneg_right c1 hu.le
  have b2 : (n : ℚ) * 2 ^ k < (2 : ℚ) ^ (k + 52 + 1) := by
    rw [two_zpow_succ, two_zpow_split (k + 52), ← hk]
    nlinarith
  have hq : (n : ℚ) * 2 ^ k / 2 ^ (k + 52 - 52) = (n : ℚ) := by
    rw [← hk]
    field_simp
  have := roundPos_eq ((n : ℚ) * 2 ^ k) (k + 52) n b1 b2 (by rw [hq]; linarith)
    (by rw [hq]; linarith)
  rw [this, ← hk]

theorem roundPos_idem (x : ℚ) (hx : 0 < x) : roundPos (roundPos x) = roundPos x := by
  obtain ⟨h1, h2⟩ := roundPos_bounds x hx
  have hu := two_zpow_pos (Int.log 2 x - 52)
  have hdef : roundPos x =
      (roundHalfEven (x / 2 ^ (Int.log 2 x - 52)) : ℚ) * 2 ^ (Int.log 2 x - 52) := rfl
  rw [hdef] at h1 h2
  rw [two_zpow_split (Int.log 2 x)] at h1
  rw [two_zpow_succ, two_zpow_split (Int.log 2 x)] at h2
  have c1 : (4503599627370496 : ℚ) ≤ (roundHalfEven (x / 2 ^ (Int.log 2 x - 52)) : ℚ) :=
    le_of_mul_le_mul_right h1 hu
  have c2 : (roundHalfEven (x / 2 ^ (Int.log 2 x - 52)) : ℚ) ≤ (9007199254740992 : ℚ) := by
    have : (roundHalfEven (x / 2 ^ (Int.log 2 x - 52)) : ℚ) * 2 ^ (Int.log 2 x - 52) ≤
        9007199254740992 * 2 ^ (Int.log 2 x - 52) := by linarith
    exact le_of_mul_le_mul_right this hu
  have i1 : (4503599627370496 : ℤ) ≤ roundHalfEven (x / 2 ^ (Int.log 2 x - 52)) := by
    exact_mod_cast c1
  have i2 : roundHalfEven (x / 2 ^ (Int.log 2 x - 52)) ≤ (9007199254740992 : ℤ) := by
    exact_mod_cast c2
  rcases lt_or_eq_of_le i2 with hlt | heq
  · rw [hdef]
    exact roundPos_of_significand _ _ i1 hlt
  · have hval : roundPos x = ((4503599627370496 : ℤ) : ℚ) * 2 ^ (Int.log 2 x - 52 + 1) := by
      rw [hdef, heq, two_zpow_succ]
      push_cast
      ring
    rw [hval]
    exact roundPos_of_significand _ _ (by norm_num) (by norm_num)

theorem roundDouble_zero : roundDouble 0 = 0 := by simp [roundDouble]

theorem roundDouble_of_pos (x : ℚ) (hx : 0 < x) : roundDouble x = roundPos x := by
  simp [roundDouble, ne_of_gt hx, not_lt.2 hx.le]

theorem roundDouble_of_neg (x : ℚ) (hx : x < 0) : roundDouble x = -roundPos (-x) := by
  simp [roundDouble, ne_of_lt hx, hx]

theorem roundDouble_mono (a b : ℚ) (hab : a ≤ b) : roundDouble a ≤ roundDouble b := by
  rcases lt_trichotomy a 0 with ha | ha | ha
  · have hra : roundDouble a < 0 := by
      rw [roundDouble_of_neg a ha]
      have := roundPos_pos (-a) (by linarith)
      linarith
    rcases lt_trichotomy b 0 with hb | hb | hb
    · rw [roundDouble_of_neg a ha, roundDouble_of_neg b hb]
      have := roundPos_mono (-b) (-a) (by linarith) (by linarith)
      linarith
    · rw [hb, roundDouble_zero]; exact hra.le
    · rw [roundDouble_of_pos b hb]
      have := roundPos_pos b hb
      linarith
  · subst ha
    rw [roundDouble_zero]
    rcases lt_or_eq_of_le hab with hb | hb
    · rw [roundDouble_of_pos b hb]; exact (roundPos_pos b hb).le
    · rw [← hb, roundDouble_zero]
  · have hb : 0 < b := lt_of_lt_of_le ha hab
    rw [roundDouble_of_pos a ha, roundDouble_of_pos b hb]
    exact roundPos_mono a b ha hab

theorem roundDouble_idem (x : ℚ) : roundDouble (roundDouble x) = roundDouble x := by
  rcases lt_trichotomy x 0 with hx | hx | hx
  · have hp := roundPos_pos (-x) (by linarith)
    rw [roundDouble_of_neg x hx, roundDouble_of_neg _ (by linarith), neg_neg,
      roundPos_idem (-x) (by linarith)]
  · subst hx
    rw [roundDouble_zero, roundDouble_zero]
  · rw [roundDouble_of_pos x hx, roundDouble_of_pos _ (roundPos_pos x hx), roundPos_idem x hx]

theorem isRounding_roundDouble : IsRounding roundDouble :=
  ⟨roundDouble_mono, roundDouble_idem, roundDouble_zero⟩

/-- A value that is a double is the rounding of its sum with 0. -/
theorem roundDouble_eq_of_bounds (x : ℚ) (e n : ℤ) (hx : 0 < x) (h1 : (2 : ℚ) ^ e ≤ x)
    (h2 : x < (2 : ℚ) ^ (e + 1)) (hn1 : (n : ℚ) - 1 / 2 < x / 2 ^ (e - 52))
    (hn2 : x / 2 ^ (e - 52) < (n : ℚ) + 1 / 2) :
    roundDouble x = (n : ℚ) * 2 ^ (e - 52) := by
  rw [roundDouble_of_pos x hx, roundPos_eq x e n h1 h2 hn1 hn2]

/-! ## The pagination loop with rounded sums -/

/-- With the identity as rounding the loop is the loop in exact arithmetic. -/
theorem stepR_id (body : QSize) (st : State) (b : Block) :
    stepR (fun x => x) body st b = step body st b := rfl

theorem stepR_break (rnd : ℚ → ℚ) (body : QSize) (st : State) (b : Block)
    (h : (scanFragments b).isBreak = true) :
    stepR rnd body st b = (⟨st.page + 1, 0⟩, none) := by
  simp [stepR, h]

theorem stepR_drawn (rnd : ℚ → ℚ) (body : QSize) (st : State) (b : Block)
    (h : isDrawn b = true) :
    stepR rnd body st b =
      (⟨placePageR rnd body st (drawnHeight body b),
        rnd (placeYR rnd body st (drawnHeight body b) + drawnHeight body b)⟩,
       some ⟨placePageR rnd body st (drawnHeight body b),
             placeYR rnd body st (drawnHeight body b),
             drawnHeight body b, drawnImage body b⟩) := by
  have hb : (scanFragments b).isBreak = false := by simpa [isDrawn] using h
  by_cases hi : (scanFragments b).isImage = true
  · by_cases hc :
      rnd (st.y + (((scanFragments b).imageFormat.scaled body).ht : ℚ)) > (body.ht : ℚ)
    · simp [stepR, hb, hi, drawnHeight, drawnImage, placePageR, placeYR, hc]
    · simp [stepR, hb, hi, drawnHeight, drawnImage, placePageR, placeYR, hc]
  · by_cases hc : rnd (st.y + b.layoutHeight) > (body.ht : ℚ)
    · simp [stepR, hb, hi, drawnHeight, drawnImage, placePageR, placeYR, hc]
    · simp [stepR, hb, hi, drawnHeight, drawnImage, placePageR, placeYR, hc]

theorem stateAfterR_append (rnd : ℚ → ℚ) (body : QSize) (st : State) (xs ys : List Block) :
    stateAfterR rnd body st (xs ++ ys) =
      stateAfterR rnd body (stateAfterR rnd body st xs) ys := by
  simp [stateAfterR, List.foldl_append]

theorem stateAfterR_cons (rnd : ℚ → ℚ) (body : QSize) (st : State) (b : Block)
    (bs : List Block) :
    stateAfterR rnd body st (b :: bs) = stateAfterR rnd body (stepR rnd body st b).1 bs := rfl

theorem paginateR_getElem (rnd : ℚ → ℚ) (body : QSize) (blocks : List Block) :
    ∀ (st : State) (i : Nat) (b : Block), blocks[i]? = some b →
      (paginateR rnd body st blocks)[i]? =
        some (stepR rnd body (stateAfterR rnd body st (blocks.take i)) b).2 := by
  induction blocks with
  | nil => intro st i b h; simp at h
  | cons a as ih =>
    intro st i b h
    cases i with
    | zero =>
      simp at h
      subst h
      simp [paginateR, stateAfterR]
    | succ n =>
      simp only [List.getElem?_cons_succ] at h
      simp only [paginateR, List.getElem?_cons_succ, List.take_succ_cons, stateAfterR_cons]
      exact ih _ n b h

theorem layoutR_getElem_drawn (rnd : ℚ → ℚ) (body : QSize) (blocks : List Block) (i : Nat)
    (b : Block) (hb : blocks[i]? = some b) (hd : isDrawn b = true) :
    (layoutR rnd body blocks)[i]? =
      some (some
        ⟨placePageR rnd body (stateAfterR rnd body ⟨0, 0⟩ (blocks.take i)) (drawnHeight body b),
         placeYR rnd body (stateAfterR rnd body ⟨0, 0⟩ (blocks.take i)) (drawnHeight body b),
         drawnHeight body b, drawnImage body b⟩) := by
  rw [layoutR, paginateR_getElem rnd body blocks _ i b hb, stepR_drawn rnd body _ b hd]

theorem layoutR_getElem_break (rnd : ℚ → ℚ) (body : QSize) (blocks : List Block) (i : Nat)
    (b : Block) (hb : blocks[i]? = some b) (hd : isDrawn b = false) :
    (layoutR rnd body blocks)[i]? = some none := by
  have hk : (scanFragments b).isBreak = true := by simpa [isDrawn] using hd
  rw [layoutR, paginateR_getElem rnd body blocks _ i b hb, stepR_break rnd body _ b hk]

theorem stateAfterR_take_succ (rnd : ℚ → ℚ) (body : QSize) (st : State)
    (blocks : List Block) (i : Nat) (b : Block) (hb : blocks[i]? = some b) :
    stateAfterR rnd body st (blocks.take (i + 1)) =
      (stepR rnd body (stateAfterR rnd body st (blocks.take i)) b).1 := by
  rw [List.take_succ, hb, stateAfterR_append]
  rfl

theorem stateAfterR_take_add (rnd : ℚ → ℚ) (body : QSize) (st : State)
    (blocks : List Block) (i n : Nat) :
    stateAfterR rnd body st (blocks.take (i + n)) =
      stateAfterR rnd body (stateAfterR rnd body st (blocks.take i))
        ((blocks.drop i).take n) := by
  rw [List.take_add, stateAfterR_append]

theorem paginateR_length (rnd : ℚ → ℚ) (body : QSize) (blocks : List Block) :
    ∀ st : State, (paginateR rnd body st blocks).length = blocks.length := by
  induction blocks with
  | nil => intro st; rfl
  | cons a as ih => intro st; simp [paginateR, ih]

theorem layoutR_some_inv (rnd : ℚ → ℚ) (body : QSize) (blocks : List Block) (i : Nat)
    (pl : Placement) (h : (layoutR rnd body blocks)[i]? = some (some pl)) :
    ∃ b : Block, blocks[i]? = some b ∧ isDrawn b = true ∧
      pl = ⟨placePageR rnd body (stateAfterR rnd body ⟨0, 0⟩ (blocks.take i))
              (drawnHeight body b),
            placeYR rnd body (stateAfterR rnd body ⟨0, 0⟩ (blocks.take i))
              (drawnHeight body b),
            drawnHeight body b, drawnImage body b⟩ := by
  have hi : i < blocks.length := by
    have := (List.getElem?_eq_some.1 h).1
    simpa [layoutR, paginateR_length] using this
  have hb : blocks[i]? = some blocks[i] := List.getElem?_eq_getElem hi
  refine ⟨blocks[i], hb, ?_⟩
  by_cases hd : isDrawn blocks[i] = true
  · refine ⟨hd, ?_⟩
    rw [layoutR_getElem_drawn rnd body blocks i _ hb hd] at h
    simpa using h.symm
  · have hd2 : isDrawn blocks[i] = false := by simpa using hd
    rw [layoutR_getElem_break rnd body blocks i _ hb hd2] at h
    simp at h

/-- The cursor after an iteration is a rounded value (or 0). -/
theorem stepR_rep (rnd : ℚ → ℚ) (hr : IsRounding rnd) (body : QSize) (st : State)
    (b : Block) : rnd (stepR rnd body st b).1.y = (stepR rnd body st b).1.y := by
  by_cases hd : isDrawn b = true
  · rw [stepR_drawn rnd body st b hd]
    exact hr.idem _
  · have hk : (scanFragments b).isBreak = true := by simpa [isDrawn] using hd
    rw [stepR_break rnd body st b hk]
    exact hr.zero

theorem stateAfterR_rep (rnd : ℚ → ℚ) (hr : IsRounding rnd) (body : QSize)
    (blocks : List Block) :
    ∀ st : State, rnd st.y = st.y →
      rnd (stateAfterR rnd body st blocks).y = (stateAfterR rnd body st blocks).y := by
  induction blocks with
  | nil => intro st h; exact h
  | cons a as ih =>
    intro st _
    rw [stateAfterR_cons]
    exact ih _ (stepR_rep rnd hr body st a)

theorem stepR_le (rnd : ℚ → ℚ) (hr : IsRounding rnd) (body : QSize) (st : State)
    (b : Block) (hst : rnd st.y = st.y)
    (hnn : isDrawn b = true → 0 ≤ drawnHeight body b) :
    State.le st (stepR rnd body st b).1 := by
  by_cases hd : isDrawn b = true
  · rw [stepR_drawn rnd body st b hd]
    have h0 := hnn hd
    by_cases hc : rnd (st.y + drawnHeight body b) > (body.ht : ℚ)
    · left; simp [placePageR, hc]
    · right
      simp only [placePageR, placeYR, hc, if_false]
      refine ⟨trivial, ?_⟩
      have := hr.mono st.y (st.y + drawnHeight body b) (by linarith)
      rw [hst] at this
      exact this
  · have hk : (scanFragments b).isBreak = true := by simpa [isDrawn] using hd
    rw [stepR_break rnd body st b hk]
    left; simp

theorem stateAfterR_le (rnd : ℚ → ℚ) (hr : IsRounding rnd) (body : QSize)
    (blocks : List Block) :
    ∀ st : State, rnd st.y = st.y →
      (∀ b ∈ blocks, isDrawn b = true → 0 ≤ drawnHeight body b) →
      State.le st (stateAfterR rnd body st blocks) := by
  induction blocks with
  | nil => intro st _ _; exact State.le_refl st
  | cons a as ih =>
    intro st hst hnn
    rw [stateAfterR_cons]
    exact State.le_trans (stepR_le rnd hr body st a hst (hnn a (List.mem_cons_self a as)))
      (ih _ (stepR_rep rnd hr body st a) (fun b hb => hnn b (List.mem_cons_of_mem a hb)))

theorem stateAfterR_take_le (rnd : ℚ → ℚ) (hr : IsRounding rnd) (body : QSize)
    (st : State) (hst : rnd st.y = st.y) (blocks : List Block)
    (hnn : ∀ b ∈ blocks, isDrawn b = true → 0 ≤ drawnHeight body b)
    (i j : Nat) (hij : i ≤ j) :
    State.le (stateAfterR rnd body st (blocks.take i))
      (stateAfterR rnd body st (blocks.take j)) := by
  obtain ⟨n, rfl⟩ := Nat.exists_eq_add_of_le hij
  rw [stateAfterR_take_add]
  apply stateAfterR_le rnd hr
  · exact stateAfterR_rep rnd hr body _ st hst
  · intro b hb
    exact hnn b (List.mem_of_mem_drop (List.mem_of_mem_take hb))

theorem placeR_le (rnd : ℚ → ℚ) (body : QSize) (st : State) (h : ℚ) :
    State.le st ⟨placePageR rnd body st h, placeYR rnd body st h⟩ := by
  by_cases hc : rnd (st.y + h) > (body.ht : ℚ)
  · left; simp [placePageR, hc]
  · right; simp [placePageR, placeYR, hc]

theorem placeYR_rep (rnd : ℚ → ℚ) (hr : IsRounding rnd) (body : QSize) (st : State)
    (h : ℚ) (hst : rnd st.y = st.y) :
    rnd (placeYR rnd body st h) = placeYR rnd body st h := by
  unfold placeYR
  split
  · exact hr.zero
  · exact hst

/-! ## Four roundings to the nearest double -/

theorem roundDouble_double_0_1 : roundDouble double_0_1 = double_0_1 := by
  have h := roundDouble_eq_of_bounds double_0_1 (-4) 7205759403792794
    (by norm_num [double_0_1]) (by norm_num [double_0_1]) (by norm_num [double_0_1])
    (by norm_num [double_0_1]) (by norm_num [double_0_1])
  rw [h]
  norm_num [double_0_1]

theorem roundDouble_double_99_9 : roundDouble double_99_9 = double_99_9 := by
  have h := roundDouble_eq_of_bounds double_99_9 6 7029837543348634
    (by norm_num [double_99_9]) (by norm_num [double_99_9]) (by norm_num [double_99_9])
    (by norm_num [double_99_9]) (by norm_num [double_99_9])
  rw [h]
  norm_num [double_99_9]

theorem roundDouble_hundred : roundDouble 100 = 100 := by
  have h := roundDouble_eq_of_bounds 100 6 7036874417766400
    (by norm_num) (by norm_num) (by norm_num) (by norm_num) (by norm_num)
  rw [h]
  norm_num

/-- The double sum of the doubles nearest to 0.1 and 99.9 is 100, below the
exact sum. -/
theorem roundDouble_sum_0_1_99_9 : roundDouble (double_0_1 + double_99_9) = 100 := by
  have h := roundDouble_eq_of_bounds (double_0_1 + double_99_9) 6 7036874417766400
    (by norm_num [double_0_1, double_99_9]) (by norm_num [double_0_1, double_99_9])
    (by norm_num [double_0_1, double_99_9]) (by norm_num [double_0_1, double_99_9])
    (by norm_num [double_0_1, double_99_9])
  rw [h]
  norm_num

theorem scanFragments_textBlock (h : ℚ) :
    scanFragments (textBlock h) = ⟨false, false, false, ⟨0, 0⟩⟩ := rfl

theorem stepR_textBlock (rnd : ℚ → ℚ) (body : QSize) (st : State) (h : ℚ) :
    stepR rnd body st (textBlock h) =
      if rnd (st.y + h) > (body.ht : ℚ) then
        (⟨st.page + 1, rnd (0 + h)⟩, some ⟨st.page + 1, 0, h, none⟩)
      else (⟨st.page, rnd (st.y + h)⟩, some ⟨st.page, st.y, h, none⟩) := by
  have hl : (textBlock h).layoutHeight = h := rfl
  by_cases hc : rnd (st.y + h) > (body.ht : ℚ)
  · simp [stepR, scanFragments_textBlock, hl, hc]
  · simp [stepR, scanFragments_textBlock, hl, hc]

theorem drawnHeight_textBlock (body : QSize) (h : ℚ) :
    drawnHeight body (textBlock h) = h := rfl

/-! ## The claims on the placement of blocks, with the sums of the code -/

/-- C1, as stated, fails: on a body of height 100, text blocks whose heights are
the doubles nearest to 0.1 and 99.9 are both drawn on page 0, the second at
offset 0.1 (the double sum is 100, not above the body height), and its exact
`y + height` is above the body height although its height is not. -/
theorem C1_counterexample :
    roundDouble double_0_1 = double_0_1 ∧ roundDouble double_99_9 = double_99_9 ∧
    layoutR roundDouble ⟨100, 100⟩ [textBlock double_0_1, textBlock double_99_9] =
      [some ⟨0, 0, double_0_1, none⟩, some ⟨0, double_0_1, double_99_9, none⟩] ∧
    double_99_9 ≤ (((⟨100, 100⟩ : QSize).ht : Int) : ℚ) ∧
    ¬ ((⟨0, double_0_1, double_99_9, none⟩ : Placement).y +
        (⟨0, double_0_1, double_99_9, none⟩ : Placement).height ≤
          (((⟨100, 100⟩ : QSize).ht : Int) : ℚ)) := by
  refine ⟨roundDouble_double_0_1, roundDouble_double_99_9, ?_, ?_, ?_⟩
  · have c1 : ¬ (double_0_1 > (((⟨100, 100⟩ : QSize).ht : Int) : ℚ)) := by
      norm_num [double_0_1]
    have c2 : ¬ ((100 : ℚ) > (((⟨100, 100⟩ : QSize).ht : Int) : ℚ)) := by norm_num
    simp only [layoutR, paginateR, stepR_textBlock, zero_add, roundDouble_double_0_1,
      roundDouble_sum_0_1_99_9, c1, c2, if_false]
  · norm_num [double_99_9]
  · norm_num [double_0_1, double_99_9]

/-- C1, amended: for a rounding `rnd` of sums to a `qreal`, a drawn (text or
image) block whose height is a `qreal`, at most the height of the page body, is
drawn at an offset `y` whose rounded sum with the height, the sum the loop
computes, is at most the body height; so the exact `y + height` is at most the
body height or rounds to exactly the body height. -/
theorem C1_drawn_block_within_body_rounded (rnd : ℚ → ℚ) (hr : IsRounding rnd)
    (body : QSize) (blocks : List Block) (i : Nat) (b : Block)
    (hb : blocks[i]? = some b) (hd : isDrawn b = true)
    (hrep : rnd (drawnHeight body b) = drawnHeight body b)
    (hH : rnd (body.ht : ℚ) = (body.ht : ℚ))
    (hfit : drawnHeight body b ≤ (body.ht : ℚ)) :
    ∃ pl : Placement, (layoutR rnd body blocks)[i]? = some (some pl) ∧
      pl.height = drawnHeight body b ∧
      rnd (pl.y + pl.height) ≤ (body.ht : ℚ) ∧
      (pl.y + pl.height ≤ (body.ht : ℚ) ∨ rnd (pl.y + pl.height) = (body.ht : ℚ)) := by
  refine ⟨_, layoutR_getElem_drawn rnd body blocks i b hb hd, rfl, ?_⟩
  have hle : rnd (placeYR rnd body (stateAfterR rnd body ⟨0, 0⟩ (blocks.take i))
      (drawnHeight body b) + drawnHeight body b) ≤ (body.ht : ℚ) := by
    simp only [placeYR]
    split
    · rw [zero_add, hrep]
      exact hfit
    · linarith
  refine ⟨hle, ?_⟩
  by_cases hex : placeYR rnd body (stateAfterR rnd body ⟨0, 0⟩ (blocks.take i))
      (drawnHeight body b) + drawnHeight body b ≤ (body.ht : ℚ)
  · left; exact hex
  · right
    have hge := hr.mono _ _ (le_of_lt (lt_of_not_le hex))
    rw [hH] at hge
    exact le_antisymm hle hge

/-- Instance of the amended C1 at the input of the counterexample, with
rounding to the nearest double. -/
theorem C1_drawn_block_within_body_rounded_witness :
    ∃ pl : Placement,
      (layoutR roundDouble ⟨100, 100⟩ [textBlock double_0_1, textBlock double_99_9])[1]? =
        some (some pl) ∧
      pl.height = drawnHeight ⟨100, 100⟩ (textBlock double_99_9) ∧
      roundDouble (pl.y + pl.height) ≤ (((⟨100, 100⟩ : QSize).ht : Int) : ℚ) ∧
      (pl.y + pl.height ≤ (((⟨100, 100⟩ : QSize).ht : Int) : ℚ) ∨
        roundDouble (pl.y + pl.height) = (((⟨100, 100⟩ : QSize).ht : Int) : ℚ)) :=
  C1_drawn_block_within_body_rounded roundDouble isRounding_roundDouble ⟨100, 100⟩
    [textBlock double_0_1, textBlock double_99_9] 1 (textBlock double_99_9) rfl rfl
    (by
      rw [drawnHeight_textBlock]
      exact roundDouble_double_99_9)
    (by
      have hh : ((((⟨100, 100⟩ : QSize).ht : Int) : ℚ)) = 100 := by norm_num
      rw [hh]
      exact roundDouble_hundred)
    (by
      rw [drawnHeight_textBlock]
      norm_num [double_99_9])

/-- C2, as stated, fails: on a body of height 100, text blocks of heights 0.1,
99.9 (the nearest doubles) and 0 are all drawn on page 0; the third is drawn at
offset 100, the double sum of 0.1 and 99.9, which is below the exact end
`y + height` of the second. -/
theorem C2_counterexample :
    layoutR roundDouble ⟨100, 100⟩
        [textBlock double_0_1, textBlock double_99_9, textBlock 0] =
      [some ⟨0, 0, double_0_1, none⟩, some ⟨0, double_0_1, double_99_9, none⟩,
        some ⟨0, 100, 0, none⟩] ∧
    (0 ≤ double_0_1 ∧ 0 ≤ double_99_9) ∧
    ¬ ((⟨0, 100, 0, none⟩ : Placement).page >
          (⟨0, double_0_1, double_99_9, none⟩ : Placement).page ∨
        ((⟨0, 100, 0, none⟩ : Placement).page =
            (⟨0, double_0_1, double_99_9, none⟩ : Placement).page ∧
          (⟨0, 100, 0, none⟩ : Placement).y ≥
            (⟨0, double_0_1, double_99_9, none⟩ : Placement).y +
              (⟨0, double_0_1, double_99_9, none⟩ : Placement).height)) := by
  refine ⟨?_, ⟨?_, ?_⟩, ?_⟩
  · have c1 : ¬ (double_0_1 > (((⟨100, 100⟩ : QSize).ht : Int) : ℚ)) := by
      norm_num [double_0_1]
    have c2 : ¬ ((100 : ℚ) > (((⟨100, 100⟩ : QSize).ht : Int) : ℚ)) := by norm_num
    simp only [layoutR, paginateR, stepR_textBlock, zero_add, add_zero,
      roundDouble_double_0_1, roundDouble_sum_0_1_99_9, roundDouble_hundred, c1, c2,
      if_false]
  · norm_num [double_0_1]
  · norm_num [double_99_9]
  · norm_num [double_0_1, double_99_9]

/-- C2, amended: for a rounding `rnd` of sums to a `qreal` and non-negative
heights, of two drawn blocks the later one in source order is on a later page,
or on the same page at an offset at or below the rounded end of the earlier
one, the sum `y1 + height1` as the loop computes it; and that rounded end is
not above the offset of the earlier block. -/
theorem C2_monotonic_placement_rounded (rnd : ℚ → ℚ) (hr : IsRounding rnd)
    (body : QSize) (blocks : List Block)
    (hnn : ∀ b ∈ blocks, isDrawn b = true → 0 ≤ drawnHeight body b)
    (i j : Nat) (hij : i < j) (pl1 pl2 : Placement)
    (h1 : (layoutR rnd body blocks)[i]? = some (some pl1))
    (h2 : (layoutR rnd body blocks)[j]? = some (some pl2)) :
    (pl2.page > pl1.page ∨
      (pl2.page = pl1.page ∧ pl2.y ≥ rnd (pl1.y + pl1.height))) ∧
    pl1.y ≤ rnd (pl1.y + pl1.height) := by
  obtain ⟨b1, hb1, hd1, rfl⟩ := layoutR_some_inv rnd body blocks i pl1 h1
  obtain ⟨b2, _, _, rfl⟩ := layoutR_some_inv rnd body blocks j pl2 h2
  have h00 : rnd (⟨0, 0⟩ : State).y = (⟨0, 0⟩ : State).y := hr.zero
  constructor
  · have hs := stateAfterR_take_succ rnd body ⟨0, 0⟩ blocks i b1 hb1
    rw [stepR_drawn rnd body _ b1 hd1] at hs
    have hmono := stateAfterR_take_le rnd hr body ⟨0, 0⟩ h00 blocks hnn (i + 1) j hij
    rw [hs] at hmono
    have hfin := State.le_trans hmono
      (placeR_le rnd body (stateAfterR rnd body ⟨0, 0⟩ (blocks.take j))
        (drawnHeight body b2))
    rcases hfin with hlt | ⟨heq, hle⟩
    · left; exact hlt
    · right; exact ⟨heq.symm, hle⟩
  · have hmem : b1 ∈ blocks := List.getElem?_mem hb1
    have h0 := hnn b1 hmem hd1
    have hrep := placeYR_rep rnd hr body (stateAfterR rnd body ⟨0, 0⟩ (blocks.take i))
      (drawnHeight body b1) (stateAfterR_rep rnd hr body _ ⟨0, 0⟩ h00)
    have hm := hr.mono
      (placeYR rnd body (stateAfterR rnd body ⟨0, 0⟩ (blocks.take i)) (drawnHeight body b1))
      (placeYR rnd body (stateAfterR rnd body ⟨0, 0⟩ (blocks.take i)) (drawnHeight body b1) +
        drawnHeight body b1) (by linarith)
    rw [hrep] at hm
    exact hm

/-- Instance of the amended C2 at the input of the counterexample, with
rounding to the nearest double: the second and the third block. -/
theorem C2_monotonic_placement_rounded_witness :
    ((⟨0, 100, 0, none⟩ : Placement).page >
        (⟨0, double_0_1, double_99_9, none⟩ : Placement).page ∨
      ((⟨0, 100, 0, none⟩ : Placement).page =
          (⟨0, double_0_1, double_99_9, none⟩ : Placement).page ∧
        (⟨0, 100, 0, none⟩ : Placement).y ≥
          roundDouble ((⟨0, double_0_1, double_99_9, none⟩ : Placement).y +
            (⟨0, double_0_1, double_99_9, none⟩ : Placement).height))) ∧
    (⟨0, double_0_1, double_99_9, none⟩ : Placement).y ≤
      roundDouble ((⟨0, double_0_1, double_99_9, none⟩ : Placement).y +
        (⟨0, double_0_1, double_99_9, none⟩ : Placement).height) :=
  have hl : layoutR roundDouble ⟨100, 100⟩
      [textBlock double_0_1, textBlock double_99_9, textBlock 0] =
      [some ⟨0, 0, double_0_1, none⟩, some ⟨0, double_0_1, double_99_9, none⟩,
        some ⟨0, 100, 0, none⟩] := by
    have c1 : ¬ (double_0_1 > (((⟨100, 100⟩ : QSize).ht : Int) : ℚ)) := by
      norm_num [double_0_1]
    have c2 : ¬ ((100 : ℚ) > (((⟨100, 100⟩ : QSize).ht : Int) : ℚ)) := by norm_num
    simp only [layoutR, paginateR, stepR_textBlock, zero_add, add_zero,
      roundDouble_double_0_1, roundDouble_sum_0_1_99_9, roundDouble_hundred, c1, c2,
      if_false]
  C2_monotonic_placement_rounded roundDouble isRounding_roundDouble ⟨100, 100⟩
    [textBlock double_0_1, textBlock double_99_9, textBlock 0]
    (by
      intro b hb _
      simp only [List.mem_cons, List.mem_singleton, List.not_mem_nil, or_false] at hb
      rcases hb with hb | hb | hb <;> subst hb <;> rw [drawnHeight_textBlock]
      · norm_num [double_0_1]
      · norm_num [double_99_9])
    1 2 (by decide) _ _ (by rw [hl]; rfl) (by rw [hl]; rfl)

end Prototyper.Core
